import Mathlib

/-!
# ClusteringProject: density / periphery clustering of an undirected graph

A shallow embedding of `src/ClusteringProject.cpp` (class `Graph`) and the
properties of its clustering engine.

Modelling conventions.

* `std::string` node identifiers: any type `Node` with a decidable total order
  (`LinearOrder Node`); `std::string` with its lexicographic `<` is one instance.
* `double`: a `double` is a rational number, and the methods are modelled with exact
  arithmetic on `ℚ`. Where the value of a quotient or its comparison with a threshold is
  what a property is about, the methods `calculateDensity` and `isNodeInPeriphery` are
  also given with their rounding operations as parameters (`calculateDensityWith`,
  `isNodeInPeripheryWith`); the exact versions are the instances with the exact product
  and quotient. Thresholds are never NaN.
* `int` and `size_t` counters: unbounded integers (container sizes are assumed to stay
  below `2^31`).
* `unordered_map<string, vector<WeightedEdge>> adjList`: an association list with
  one entry per key.  Its iteration order is unspecified in C++, so every loop
  `for (pair : adjList)` takes the scan order as an explicit argument.
* `unordered_set<string>`: a duplicate-free list (`insert` appends when absent).
  The loops over such a set only add up counts or fill an ordered `std::set`, so
  their result does not depend on the iteration order.
* `std::set<string>`: a strictly ascending list; iteration is left to right.
* `unordered_map<string, bool> visited`: a total function `Node → Bool`; a key that
  is absent reads as `false` (what `operator[]` value-initialises).
* exceptions: `Except Error`; the `while` loop of `expandCluster` takes a budget of
  rounds (`fuel`) and reports `Error.fuelExhausted` when it is used up.
-/

namespace ClusteringProject

/-- The record `struct WeightedEdge`. -/
structure WeightedEdge (Node : Type) where
  sourceNode : Node
  targetNode : Node
  weight : ℚ
deriving DecidableEq

/-- The field `adjList` of `class Graph`: node identifier to its half-edges. -/
abbrev Graph (Node : Type) := List (Node × List (WeightedEdge Node))

/-- The nodes of a cluster (`struct Cluster`, field `nodes`). -/
abbrev Cluster (Node : Type) := List Node

/-- Failures: `std::out_of_range` thrown by `unordered_map::at`, and the round budget
of the model of the `while` loop running out. -/
inductive Error where
  | outOfRange
  | fuelExhausted
deriving DecidableEq

variable {Node : Type} [LinearOrder Node]

/-- The keys of the adjacency map, the node universe (`getAllNodes`, in the order of
the association list). -/
def getAllNodes (g : Graph Node) : List Node :=
  g.map Prod.fst

/-- The lookup `adjList.find(k)`: the half-edges stored under `k`, if `k` is a key. -/
def find : Graph Node → Node → Option (List (WeightedEdge Node))
  | [], _ => none
  | (k', es) :: rest, k => if k' = k then some es else find rest k

/-- The statement `adjList[k].push_back(e)`: `operator[]` creates the key with an empty
vector when it is absent, then the half-edge is appended. -/
def pushBack : Graph Node → Node → WeightedEdge Node → Graph Node
  | [], k, e => [(k, [e])]
  | (k', es) :: rest, k, e =>
    if k' = k then (k', es ++ [e]) :: rest else (k', es) :: pushBack rest k e

/-- The read access `adjList[k]`: the stored vector, or a fresh empty vector that is
inserted under `k` when `k` is absent. The graph after the access is returned too. -/
def subscript (g : Graph Node) (k : Node) : Graph Node × List (WeightedEdge Node) :=
  match find g k with
  | some es => (g, es)
  | none => (g ++ [(k, [])], [])

/-- The method `Graph::addEdge`. -/
def addEdge (g : Graph Node) (node1 node2 : Node) (weight : ℚ) : Graph Node :=
  pushBack (pushBack g node1 ⟨node1, node2, weight⟩) node2 ⟨node2, node1, weight⟩

/-- The loading loop of `readGraphFromFile`: one `addEdge` call per parsed triple,
starting from the empty graph. -/
def addEdges (edges : List (Node × Node × ℚ)) : Graph Node :=
  edges.foldl (fun g e => addEdge g e.1 e.2.1 e.2.2) []

/-- The method `Graph::getNeighbors`: `adjList.at(node)`. -/
def getNeighbors (g : Graph Node) (node : Node) : Except Error (List (WeightedEdge Node)) :=
  match find g node with
  | some es => .ok es
  | none => .error .outOfRange

/-- `unordered_set::insert`. -/
def setInsert (s : List Node) (x : Node) : List Node :=
  if x ∈ s then s else s ++ [x]

/-- `std::set::insert`: insertion into a strictly ascending list. -/
def orderedInsert (x : Node) : List Node → List Node
  | [] => [x]
  | y :: ys =>
    if x < y then x :: y :: ys
    else if x = y then y :: ys
    else y :: orderedInsert x ys

/-- Inner loop of `calculateDensity` for one `node`: `numEdges++` for every half-edge
whose target is in the cluster and is greater than `node`. -/
def countEdges (clusterNodes : List Node) (node : Node) :
    List (WeightedEdge Node) → ℚ → ℚ
  | [], numEdges => numEdges
  | edge :: rest, numEdges =>
    if edge.targetNode ∈ clusterNodes ∧ node < edge.targetNode then
      countEdges clusterNodes node rest (numEdges + 1)
    else countEdges clusterNodes node rest numEdges

/-- Outer loop of `calculateDensity` over the nodes of the cluster; `adjList.at(node)`
throws for a node that is not a key. -/
def densityLoop (g : Graph Node) (clusterNodes : List Node) :
    List Node → ℚ → Except Error ℚ
  | [], numEdges => .ok numEdges
  | node :: rest, numEdges =>
    match find g node with
    | none => .error .outOfRange
    | some es => densityLoop g clusterNodes rest (countEdges clusterNodes node es numEdges)

/-- The method `Graph::calculateDensity`. -/
def calculateDensity (g : Graph Node) (clusterNodes : List Node) : Except Error ℚ :=
  let numNodes : ℚ := clusterNodes.length
  if numNodes < 2 then .ok 0
  else
    match densityLoop g clusterNodes clusterNodes 0 with
    | .error e => .error e
    | .ok numEdges =>
      let maxEdges : ℚ := numNodes * (numNodes - 1) / 2
      .ok (numEdges / maxEdges)

/-- The counting loop of `isNodeInPeriphery`. -/
def countConnections (candidate : Node) (clusterNodes : List Node) :
    List (WeightedEdge Node) → ℤ → ℤ
  | [], connectionCount => connectionCount
  | edge :: rest, connectionCount =>
    if edge.targetNode ∈ clusterNodes ∧ edge.targetNode ≠ candidate then
      countConnections candidate clusterNodes rest (connectionCount + 1)
    else countConnections candidate clusterNodes rest connectionCount

/-- The method `Graph::isNodeInPeriphery`. -/
def isNodeInPeriphery (g : Graph Node) (candidate : Node) (clusterNodes : List Node)
    (cpThreshold : ℚ) : Bool :=
  match find g candidate with
  | none => false
  | some es =>
    let connectionCount : ℤ := countConnections candidate clusterNodes es 0
    let denominator : ℤ :=
      if clusterNodes.length > 1 then (clusterNodes.length : ℤ) - 1 else 1
    let ratio : ℚ := (connectionCount : ℚ) / (denominator : ℚ)
    decide (ratio ≥ cpThreshold)

/-- The method `Graph::calculateDensity` with its two rounding `double` operations left
open: `fmul a b` stands for the product `a * b` and `fdiv a b` for the quotient `a / b` as
the machine computes them (a `double` is a rational number, and the machine operation
returns the exact result rounded to a `double`). The comparison `numNodes < 2`, the
increments `numEdges++` and the difference `numNodes - 1` are exact on the integers they
are applied to. `calculateDensity` is the instance with the exact product and quotient. -/
def calculateDensityWith (fmul fdiv : ℚ → ℚ → ℚ) (g : Graph Node) (clusterNodes : List Node) :
    Except Error ℚ :=
  let numNodes : ℚ := clusterNodes.length
  if numNodes < 2 then .ok 0
  else
    match densityLoop g clusterNodes clusterNodes 0 with
    | .error e => .error e
    | .ok numEdges =>
      let maxEdges : ℚ := fdiv (fmul numNodes (numNodes - 1)) 2
      .ok (fdiv numEdges maxEdges)

/-- The method `Graph::isNodeInPeriphery` with its rounding `double` operation left open:
`fdiv a b` stands for the quotient `a / b` as the machine computes it. The conversions of
the two `int` values to `double` and the comparison `ratio >= cpThreshold` are exact.
`isNodeInPeriphery` is the instance with the exact quotient. -/
def isNodeInPeripheryWith (fdiv : ℚ → ℚ → ℚ) (g : Graph Node) (candidate : Node)
    (clusterNodes : List Node) (cpThreshold : ℚ) : Bool :=
  match find g candidate with
  | none => false
  | some es =>
    let connectionCount : ℤ := countConnections candidate clusterNodes es 0
    let denominator : ℤ :=
      if clusterNodes.length > 1 then (clusterNodes.length : ℤ) - 1 else 1
    let ratio : ℚ := fdiv (connectionCount : ℚ) (denominator : ℚ)
    decide (ratio ≥ cpThreshold)

/-- The assignment `visited[k] = b`. -/
def setVisited (visited : Node → Bool) (k : Node) (b : Bool) : Node → Bool :=
  fun x => if x = k then b else visited x

/-- Candidate collection, inner loop: the unvisited targets of one adjacency list are
inserted into the ordered set `candidates`. -/
def collectEdges (visited : Node → Bool) :
    List (WeightedEdge Node) → List Node → List Node
  | [], candidates => candidates
  | edge :: rest, candidates =>
    if !visited edge.targetNode then
      collectEdges visited rest (orderedInsert edge.targetNode candidates)
    else collectEdges visited rest candidates

/-- Candidate collection, outer loop over the nodes of the current cluster; the access
`adjList[node]` may insert `node` as a new key. -/
def collectCandidates (visited : Node → Bool) :
    List Node → Graph Node → List Node → Graph Node × List Node
  | [], g, candidates => (g, candidates)
  | node :: rest, g, candidates =>
    let r := subscript g node
    collectCandidates visited rest r.1 (collectEdges visited r.2 candidates)

/-- The state of one expansion round: the cluster, the visited map, the flag
`addedNew`. -/
structure RoundState (Node : Type) where
  nodes : List Node
  visited : Node → Bool
  addedNew : Bool

/-- The loop `for (candidate : candidates)` of `expandCluster`. -/
def evaluateCandidates (g : Graph Node) (densityThreshold cpThreshold : ℚ) :
    List Node → RoundState Node → Except Error (RoundState Node)
  | [], st => .ok st
  | candidate :: rest, st =>
    let visited := setVisited st.visited candidate true
    let nodes := setInsert st.nodes candidate
    match calculateDensity g nodes with
    | .error e => .error e
    | .ok currentDensity =>
      if currentDensity ≥ densityThreshold ∧
          isNodeInPeriphery g candidate nodes cpThreshold = true then
        evaluateCandidates g densityThreshold cpThreshold rest ⟨nodes, visited, true⟩
      else
        evaluateCandidates g densityThreshold cpThreshold rest
          ⟨nodes.erase candidate, setVisited visited candidate false, st.addedNew⟩

/-- The method `Graph::expandCluster`: `fuel` bounds the number of rounds of the
`while (addedNew)` loop. The result is the graph, the cluster and the visited map when
the loop ends. -/
def expandCluster : Nat → Graph Node → List Node → (Node → Bool) → ℚ → ℚ →
    Except Error (Graph Node × List Node × (Node → Bool))
  | 0, _, _, _, _, _ => .error .fuelExhausted
  | fuel + 1, g, nodes, visited, densityThreshold, cpThreshold =>
    let r := collectCandidates visited nodes g []
    match evaluateCandidates r.1 densityThreshold cpThreshold r.2 ⟨nodes, visited, false⟩ with
    | .error e => .error e
    | .ok st =>
      if st.addedNew then
        expandCluster fuel r.1 st.nodes st.visited densityThreshold cpThreshold
      else .ok (r.1, st.nodes, st.visited)

/-- The state of the driver loop: the graph, the visited map, the accepted clusters. -/
structure DriverState (Node : Type) where
  graph : Graph Node
  visited : Node → Bool
  clusters : List (Cluster Node)

/-- The second loop of `performClustering`, over the keys in scan order. -/
def clusteringLoop (fuel : Nat) (densityThreshold cpThreshold : ℚ) :
    List Node → DriverState Node → Except Error (DriverState Node)
  | [], st => .ok st
  | node :: rest, st =>
    if !st.visited node then
      let visited := setVisited st.visited node true
      match expandCluster fuel st.graph [node] visited densityThreshold cpThreshold with
      | .error e => .error e
      | .ok (g, nodes, visited) =>
        match calculateDensity g nodes with
        | .error e => .error e
        | .ok clusterDensity =>
          if clusterDensity ≥ densityThreshold then
            clusteringLoop fuel densityThreshold cpThreshold rest
              ⟨g, visited, st.clusters ++ [nodes]⟩
          else
            clusteringLoop fuel densityThreshold cpThreshold rest ⟨g, visited, st.clusters⟩
    else clusteringLoop fuel densityThreshold cpThreshold rest st

/-- The method `Graph::performClustering`. `order` is the order in which the range-for
visits the keys of `adjList`; the first loop sets `visited` to `false` on every key.
The result is the graph after the run and the list of accepted clusters. -/
def performClustering (fuel : Nat) (g : Graph Node) (order : List Node)
    (densityThreshold cpThreshold : ℚ) : Except Error (Graph Node × List (Cluster Node)) :=
  match clusteringLoop fuel densityThreshold cpThreshold order ⟨g, fun _ => false, []⟩ with
  | .error e => .error e
  | .ok st => .ok (st.graph, st.clusters)

/-! ## Auxiliary notions used in the statements and proofs -/

/-- The half-edges stored under `k`, empty when `k` is not a key. -/
def adj (g : Graph Node) (k : Node) : List (WeightedEdge Node) :=
  (find g k).getD []

/-- The graph reached from `g` by a sequence of `addEdge` calls. -/
def addEdgesFrom (g : Graph Node) (edges : List (Node × Node × ℚ)) : Graph Node :=
  edges.foldl (fun g e => addEdge g e.1 e.2.1 e.2.2) g

/-- Edge symmetry together with the bookkeeping of sources: every half-edge stored
under `u` has source `u`, and its mirror image is stored under its target. -/
def Symmetric (g : Graph Node) : Prop :=
  ∀ u : Node, ∀ e ∈ adj g u,
    e.sourceNode = u ∧ (⟨e.targetNode, u, e.weight⟩ : WeightedEdge Node) ∈ adj g e.targetNode

/-- Every target of a stored half-edge is a key of the adjacency map. -/
def Closed (g : Graph Node) : Prop :=
  ∀ u : Node, ∀ e ∈ adj g u, e.targetNode ∈ getAllNodes g

/-- The number of half-edges counted by the loops of `calculateDensity` when the outer
loop runs over `l`: for each node of `l`, its half-edges into `S` with a greater
target. -/
def edgeCount (g : Graph Node) (S l : List Node) : ℕ :=
  (l.map (fun n => (adj g n).countP (fun e => decide (e.targetNode ∈ S ∧ n < e.targetNode)))).sum

/-- The value computed by `calculateDensity` when no lookup fails. -/
def density (g : Graph Node) (S : List Node) : ℚ :=
  if (S.length : ℚ) < 2 then 0
  else (edgeCount g S S : ℚ) / ((S.length : ℚ) * ((S.length : ℚ) - 1) / 2)

/-- The number of `addEdge` calls of a trace that join two distinct nodes of `S`. -/
def intraEdges (edges : List (Node × Node × ℚ)) (S : List Node) : ℕ :=
  edges.countP (fun e => decide (e.1 ≠ e.2.1 ∧ e.1 ∈ S ∧ e.2.1 ∈ S))

/-- No two `addEdge` calls of the trace join the same two distinct nodes. Self-loops
are not restricted. -/
def NoParallelEdges (edges : List (Node × Node × ℚ)) : Prop :=
  ∀ u v : Node, u ≠ v →
    edges.countP (fun e => decide ((e.1 = u ∧ e.2.1 = v) ∨ (e.1 = v ∧ e.2.1 = u))) ≤ 1

/-- The number of keys that are not marked visited: the measure that bounds the number
of rounds of `expandCluster`. -/
def unvisitedCount (g : Graph Node) (visited : Node → Bool) : ℕ :=
  ((getAllNodes g).toFinset.filter (fun k => visited k = false)).card

/-- The candidates of a round: the unvisited targets of the half-edges that leave the
cluster. -/
def IsCandidate (g : Graph Node) (nodes : List Node) (visited : Node → Bool) (c : Node) : Prop :=
  visited c = false ∧ ∃ n ∈ nodes, ∃ e ∈ adj g n, e.targetNode = c

/-- The half-edges created by a trace of `addEdge` calls, in the order in which they are
pushed: `u -> v` and then `v -> u` for every call `addEdge(u, v, w)`. -/
def halfEdges : List (Node × Node × ℚ) → List (WeightedEdge Node)
  | [] => []
  | e :: rest => ⟨e.1, e.2.1, e.2.2⟩ :: ⟨e.2.1, e.1, e.2.2⟩ :: halfEdges rest

/-- One round of the `while` loop of `expandCluster`: the candidates are collected, then
evaluated with `addedNew` reset to `false`. The result is the graph after the round and
the state in which the loop condition is tested. -/
def expandRound (g : Graph Node) (nodes : List Node) (visited : Node → Bool)
    (densityThreshold cpThreshold : ℚ) : Except Error (Graph Node × RoundState Node) :=
  let r := collectCandidates visited nodes g []
  match evaluateCandidates r.1 densityThreshold cpThreshold r.2 ⟨nodes, visited, false⟩ with
  | .error e => .error e
  | .ok st => .ok (r.1, st)

/-- The states (graph, cluster, visited map) in which a round of the `while` loop of
`expandCluster g0 [seed] visited0` begins: the initial state, and the state after every
round that ended with `addedNew` set. -/
inductive RoundReach (densityThreshold cpThreshold : ℚ) (g0 : Graph Node) (seed : Node)
    (visited0 : Node → Bool) : Graph Node → List Node → (Node → Bool) → Prop
  | start : RoundReach densityThreshold cpThreshold g0 seed visited0 g0 [seed] visited0
  | step {g : Graph Node} {nodes : List Node} {visited : Node → Bool} {g' : Graph Node}
      {st : RoundState Node} :
      RoundReach densityThreshold cpThreshold g0 seed visited0 g nodes visited →
      expandRound g nodes visited densityThreshold cpThreshold = .ok (g', st) →
      st.addedNew = true →
      RoundReach densityThreshold cpThreshold g0 seed visited0 g' st.nodes st.visited

/-- The graph without its weights: for every key, in map order, the targets of its
half-edges. -/
def shape (g : Graph Node) : List (Node × List Node) :=
  g.map (fun p => (p.1, p.2.map (fun e => e.targetNode)))

/-! ## The adjacency map -/

theorem find_isSome_iff (g : Graph Node) (k : Node) :
    (find g k).isSome = true ↔ k ∈ getAllNodes g := by
  induction g with
  | nil => simp [find, getAllNodes]
  | cons p rest ih =>
    obtain ⟨k', es⟩ := p
    by_cases h : k' = k
    · simp [find, getAllNodes, h]
    · have h' : ¬ k = k' := fun e => h e.symm
      simp only [getAllNodes] at ih
      simp [find, getAllNodes, h, h', ih]

theorem find_eq_none_iff (g : Graph Node) (k : Node) :
    find g k = none ↔ k ∉ getAllNodes g := by
  rw [← find_isSome_iff]
  cases find g k <;> simp

theorem find_pushBack (g : Graph Node) (k : Node) (e : WeightedEdge Node) (n : Node) :
    find (pushBack g k e) n = if n = k then some (adj g k ++ [e]) else find g n := by
  induction g with
  | nil =>
    by_cases h : n = k
    · simp [pushBack, find, adj, h]
    · have h' : ¬ k = n := fun e => h e.symm
      simp [pushBack, find, h, h']
  | cons p rest ih =>
    obtain ⟨k', es⟩ := p
    by_cases hk : k' = k
    · subst hk
      by_cases h : n = k'
      · simp [pushBack, find, adj, h]
      · have h' : ¬ k' = n := fun e => h e.symm
        simp [pushBack, find, h, h']
    · by_cases h : n = k
      · subst h
        simp [pushBack, find, adj, hk, ih]
      · by_cases h2 : k' = n
        · simp [pushBack, find, hk, h, h2]
        · simp [pushBack, find, adj, hk, h, h2, ih]

theorem adj_pushBack (g : Graph Node) (k : Node) (e : WeightedEdge Node) (n : Node) :
    adj (pushBack g k e) n = if n = k then adj g k ++ [e] else adj g n := by
  unfold adj
  rw [find_pushBack]
  split <;> simp [adj]

theorem adj_addEdge (g : Graph Node) (u v : Node) (w : ℚ) (n : Node) :
    adj (addEdge g u v w) n =
      adj g n ++ (if n = u then [⟨u, v, w⟩] else []) ++ (if n = v then [⟨v, u, w⟩] else []) := by
  unfold addEdge
  rw [adj_pushBack, adj_pushBack, adj_pushBack]
  by_cases hv : n = v
  · subst hv
    by_cases hu : n = u
    · simp [hu]
    · simp [hu]
  · by_cases hu : n = u
    · subst hu
      simp [hv]
    · simp [hu, hv]

theorem mem_getAllNodes_pushBack (g : Graph Node) (k : Node) (e : WeightedEdge Node) (n : Node) :
    n ∈ getAllNodes (pushBack g k e) ↔ n = k ∨ n ∈ getAllNodes g := by
  rw [← find_isSome_iff, ← find_isSome_iff, find_pushBack]
  by_cases h : n = k <;> simp [h]

theorem mem_getAllNodes_addEdge (g : Graph Node) (u v : Node) (w : ℚ) (n : Node) :
    n ∈ getAllNodes (addEdge g u v w) ↔ n = u ∨ n = v ∨ n ∈ getAllNodes g := by
  unfold addEdge
  rw [mem_getAllNodes_pushBack, mem_getAllNodes_pushBack]
  tauto

theorem mem_adj_of_find {g : Graph Node} {k : Node} {es : List (WeightedEdge Node)}
    (h : find g k = some es) : adj g k = es := by
  simp [adj, h]

theorem adj_eq_nil_of_not_mem {g : Graph Node} {k : Node} (h : k ∉ getAllNodes g) :
    adj g k = [] := by
  simp [adj, (find_eq_none_iff g k).2 h]

theorem find_eq_some_adj {g : Graph Node} {k : Node} (h : k ∈ getAllNodes g) :
    find g k = some (adj g k) := by
  have := (find_isSome_iff g k).2 h
  cases hf : find g k with
  | none => simp [hf] at this
  | some es => simp [adj, hf]

theorem addEdges_eq (edges : List (Node × Node × ℚ)) :
    addEdges edges = addEdgesFrom ([] : Graph Node) edges := rfl

theorem symmetric_addEdge {g : Graph Node} (h : Symmetric g) (u v : Node) (w : ℚ) :
    Symmetric (addEdge g u v w) := by
  intro n e he
  rw [adj_addEdge] at he
  simp only [List.mem_append] at he
  rcases he with (he | he) | he
  · obtain ⟨h1, h2⟩ := h n e he
    refine ⟨h1, ?_⟩
    rw [adj_addEdge]
    simp only [List.mem_append]
    exact Or.inl (Or.inl h2)
  · by_cases hn : n = u
    · subst hn
      simp only [if_true, List.mem_singleton] at he
      subst he
      refine ⟨rfl, ?_⟩
      rw [adj_addEdge]
      simp
    · simp [hn] at he
  · by_cases hn : n = v
    · subst hn
      simp only [if_true, List.mem_singleton] at he
      subst he
      refine ⟨rfl, ?_⟩
      rw [adj_addEdge]
      simp
    · simp [hn] at he

theorem symmetric_addEdgesFrom (edges : List (Node × Node × ℚ)) :
    ∀ g : Graph Node, Symmetric g → Symmetric (addEdgesFrom g edges) := by
  induction edges with
  | nil => intro g h; exact h
  | cons e rest ih =>
    intro g h
    exact ih _ (symmetric_addEdge h e.1 e.2.1 e.2.2)

theorem closed_addEdge {g : Graph Node} (h : Closed g) (u v : Node) (w : ℚ) :
    Closed (addEdge g u v w) := by
  intro n e he
  rw [adj_addEdge] at he
  rw [mem_getAllNodes_addEdge]
  simp only [List.mem_append] at he
  rcases he with (he | he) | he
  · exact Or.inr (Or.inr (h n e he))
  · by_cases hn : n = u
    · simp only [hn, if_true, List.mem_singleton] at he
      subst he
      exact Or.inr (Or.inl rfl)
    · simp [hn] at he
  · by_cases hn : n = v
    · simp only [hn, if_true, List.mem_singleton] at he
      subst he
      exact Or.inl rfl
    · simp [hn] at he

theorem closed_addEdgesFrom (edges : List (Node × Node × ℚ)) :
    ∀ g : Graph Node, Closed g → Closed (addEdgesFrom g edges) := by
  induction edges with
  | nil => intro g h; exact h
  | cons e rest ih =>
    intro g h
    exact ih _ (closed_addEdge h e.1 e.2.1 e.2.2)

theorem closed_addEdges (edges : List (Node × Node × ℚ)) :
    Closed (addEdges edges : Graph Node) :=
  closed_addEdgesFrom edges [] (by intro u e he; simp [adj, find] at he)

/-- C6 (edge symmetry). In every graph built from the empty graph by a sequence of
`addEdge` calls, each half-edge stored in the adjacency list of a key `u` has source
`u`, and the adjacency list of its target `v` is present and holds the half-edge
`v -> u` with the same weight. -/
theorem edge_symmetry_addEdges (edges : List (Node × Node × ℚ)) (u : Node)
    (es : List (WeightedEdge Node)) (e : WeightedEdge Node) :
    find (addEdges edges) u = some es → e ∈ es →
      e.sourceNode = u ∧
      ∃ es', find (addEdges edges) e.targetNode = some es' ∧
        (⟨e.targetNode, u, e.weight⟩ : WeightedEdge Node) ∈ es' := by
  intro hf he
  have hsym : Symmetric (addEdges edges : Graph Node) :=
    symmetric_addEdgesFrom edges [] (by intro u e he; simp [adj, find] at he)
  have hadj : e ∈ adj (addEdges edges) u := by rw [mem_adj_of_find hf]; exact he
  obtain ⟨h1, h2⟩ := hsym u e hadj
  refine ⟨h1, adj (addEdges edges) e.targetNode, ?_, h2⟩
  exact find_eq_some_adj (closed_addEdges edges u e hadj)

/-- A run of C6 on the graph with the single edge `1 - 2` of weight `5`. -/
theorem edge_symmetry_addEdges_witness :
    (⟨1, 2, 5⟩ : WeightedEdge ℕ).sourceNode = 1 ∧
      ∃ es', find (addEdges [((1 : ℕ), (2 : ℕ), (5 : ℚ))]) 2 = some es' ∧
        (⟨2, 1, 5⟩ : WeightedEdge ℕ) ∈ es' :=
  edge_symmetry_addEdges [((1 : ℕ), (2 : ℕ), (5 : ℚ))] 1 [⟨1, 2, 5⟩] ⟨1, 2, 5⟩
    (by decide) (by simp)

/-! ## Density -/

theorem countEdges_eq (S : List Node) (node : Node) (es : List (WeightedEdge Node)) :
    ∀ acc : ℚ, countEdges S node es acc =
      acc + (es.countP (fun e => decide (e.targetNode ∈ S ∧ node < e.targetNode)) : ℕ) := by
  induction es with
  | nil => intro acc; simp [countEdges]
  | cons e rest ih =>
    intro acc
    by_cases h : e.targetNode ∈ S ∧ node < e.targetNode
    · simp only [countEdges, h, and_self, if_true, ih]
      rw [List.countP_cons_of_pos _ _ (by simpa using h)]
      push_cast
      ring
    · simp only [countEdges, h, if_false, ih]
      rw [List.countP_cons_of_neg _ _ (by simpa using h)]

theorem densityLoop_eq (g : Graph Node) (S : List Node) (l : List Node)
    (hl : ∀ n ∈ l, n ∈ getAllNodes g) :
    ∀ acc : ℚ, densityLoop g S l acc = .ok (acc + (edgeCount g S l : ℕ)) := by
  induction l with
  | nil => intro acc; simp [densityLoop, edgeCount]
  | cons n rest ih =>
    intro acc
    have hn : find g n = some (adj g n) := find_eq_some_adj (hl n (List.mem_cons_self _ _))
    have hrest : ∀ m ∈ rest, m ∈ getAllNodes g := fun m hm => hl m (List.mem_cons_of_mem _ hm)
    simp only [densityLoop, hn, ih hrest, countEdges_eq]
    simp only [edgeCount, List.map_cons, List.sum_cons]
    push_cast
    rw [add_assoc]

theorem calculateDensity_eq (g : Graph Node) (S : List Node)
    (hS : ∀ n ∈ S, n ∈ getAllNodes g) : calculateDensity g S = .ok (density g S) := by
  unfold calculateDensity density
  by_cases h : (S.length : ℚ) < 2
  · simp [h]
  · simp only [h, if_false, densityLoop_eq g S S hS, zero_add]

theorem calculateDensity_small (g : Graph Node) (S : List Node) (h : S.length < 2) :
    calculateDensity g S = .ok 0 := by
  unfold calculateDensity
  have : (S.length : ℚ) < 2 := by exact_mod_cast h
  simp [this]

theorem density_nonneg (g : Graph Node) (S : List Node) : 0 ≤ density g S := by
  unfold density
  split
  · exact le_refl 0
  · rename_i h
    have h2 : (2 : ℚ) ≤ (S.length : ℚ) := not_lt.mp h
    apply div_nonneg (Nat.cast_nonneg _)
    apply div_nonneg _ (by norm_num)
    apply mul_nonneg <;> linarith

theorem density_small (g : Graph Node) (S : List Node) (h : S.length < 2) :
    density g S = 0 := by
  unfold density
  have : (S.length : ℚ) < 2 := by exact_mod_cast h
  simp [this]

theorem edgeCount_addEdge (g : Graph Node) (u v : Node) (w : ℚ) (S l : List Node) :
    edgeCount (addEdge g u v w) S l =
      edgeCount g S l + (if v ∈ S ∧ u < v then l.count u else 0)
        + (if u ∈ S ∧ v < u then l.count v else 0) := by
  induction l with
  | nil => simp [edgeCount]
  | cons n rest ih =>
    simp only [edgeCount, List.map_cons, List.sum_cons] at ih ⊢
    rw [ih, adj_addEdge]
    simp only [List.countP_append, List.count_cons]
    have e1 : List.countP (fun e : WeightedEdge Node => decide (e.targetNode ∈ S ∧ n < e.targetNode))
        (if n = u then [⟨u, v, w⟩] else []) =
        if v ∈ S ∧ u < v then (if u = n then 1 else 0) else 0 := by
      by_cases hn : n = u
      · subst hn
        by_cases hc : v ∈ S ∧ n < v
        · simp [hc]
        · simp only [if_true, hc, if_false]
          rw [List.countP_cons_of_neg _ _ (by simpa using hc)]
          simp
      · have hn' : ¬ u = n := fun e => hn e.symm
        simp [hn, hn']
    have e2 : List.countP (fun e : WeightedEdge Node => decide (e.targetNode ∈ S ∧ n < e.targetNode))
        (if n = v then [⟨v, u, w⟩] else []) =
        if u ∈ S ∧ v < u then (if v = n then 1 else 0) else 0 := by
      by_cases hn : n = v
      · subst hn
        by_cases hc : u ∈ S ∧ n < u
        · simp [hc]
        · simp only [if_true, hc, if_false]
          rw [List.countP_cons_of_neg _ _ (by simpa using hc)]
          simp
      · have hn' : ¬ v = n := fun e => hn e.symm
        simp [hn, hn']
    rw [e1, e2]
    have b1 : ((n == u) = true) = (u = n) := by
      rw [beq_iff_eq]; exact propext ⟨Eq.symm, Eq.symm⟩
    have b2 : ((n == v) = true) = (v = n) := by
      rw [beq_iff_eq]; exact propext ⟨Eq.symm, Eq.symm⟩
    simp only [b1, b2]
    split_ifs <;> omega

theorem edgeCount_addEdge_nodup (g : Graph Node) (u v : Node) (w : ℚ) (S : List Node)
    (hS : S.Nodup) :
    edgeCount (addEdge g u v w) S S =
      edgeCount g S S + (if u ≠ v ∧ u ∈ S ∧ v ∈ S then 1 else 0) := by
  rw [edgeCount_addEdge, add_assoc]
  congr 1
  by_cases hu : u ∈ S <;> by_cases hv : v ∈ S
  · rw [List.count_eq_one_of_mem hS hu, List.count_eq_one_of_mem hS hv]
    rcases lt_trichotomy u v with h | h | h
    · have h1 : ¬ v < u := not_lt_of_lt h
      simp [hu, hv, h, h1, ne_of_lt h]
    · subst h
      simp
    · have h1 : ¬ u < v := not_lt_of_lt h
      simp [hu, hv, h, h1, (ne_of_lt h).symm]
  · simp [hu, hv, List.count_eq_zero_of_not_mem hv]
  · simp [hu, hv, List.count_eq_zero_of_not_mem hu]
  · simp [hu, hv]

theorem edgeCount_addEdgesFrom (edges : List (Node × Node × ℚ)) (S : List Node) (hS : S.Nodup) :
    ∀ g : Graph Node,
      edgeCount (addEdgesFrom g edges) S S = edgeCount g S S + intraEdges edges S := by
  induction edges with
  | nil => intro g; simp [addEdgesFrom, intraEdges]
  | cons e rest ih =>
    intro g
    have hstep : addEdgesFrom g (e :: rest) = addEdgesFrom (addEdge g e.1 e.2.1 e.2.2) rest := rfl
    rw [hstep, ih, edgeCount_addEdge_nodup _ _ _ _ _ hS]
    unfold intraEdges at *
    by_cases hc : e.1 ≠ e.2.1 ∧ e.1 ∈ S ∧ e.2.1 ∈ S
    · rw [List.countP_cons_of_pos _ _ (by simpa using hc)]
      rw [if_pos hc]
      omega
    · rw [List.countP_cons_of_neg _ _ (by simpa using hc)]
      rw [if_neg hc]
      omega

theorem edgeCount_addEdges (edges : List (Node × Node × ℚ)) (S : List Node) (hS : S.Nodup) :
    edgeCount (addEdges edges) S S = intraEdges edges S := by
  rw [addEdges_eq, edgeCount_addEdgesFrom edges S hS]
  simp [edgeCount, adj, find]

theorem intraEdges_le_choose (edges : List (Node × Node × ℚ)) (S : List Node) (hS : S.Nodup)
    (hnp : NoParallelEdges edges) : intraEdges edges S ≤ S.length.choose 2 := by
  let p : Node × Node × ℚ → Bool := fun e => decide (e.1 ≠ e.2.1 ∧ e.1 ∈ S ∧ e.2.1 ∈ S)
  let φ : Node × Node × ℚ → Sym2 Node := fun e => Sym2.mk (e.1, e.2.1)
  have hnodup : ((edges.filter p).map φ).Nodup := by
    rw [List.nodup_iff_count_le_one]
    intro a
    rw [List.count_eq_countP, List.countP_map, List.countP_filter]
    by_cases hex : ∃ e0 ∈ edges, φ e0 = a ∧ p e0 = true
    · obtain ⟨e0, _, h1, h2⟩ := hex
      have hp : e0.1 ≠ e0.2.1 ∧ e0.1 ∈ S ∧ e0.2.1 ∈ S := by simpa [p] using h2
      refine le_trans (List.countP_mono_left ?_) (hnp e0.1 e0.2.1 hp.1)
      intro e _ he
      simp only [Function.comp, Bool.and_eq_true, beq_iff_eq] at he
      have h3 : φ e = φ e0 := he.1.trans h1.symm
      simpa [φ, Sym2.eq_iff] using h3
    · have h0 : List.countP (fun a_1 => ((fun x => x == a) ∘ φ) a_1 && p a_1) edges = 0 := by
        rw [List.countP_eq_zero]
        intro e he hc
        simp only [Function.comp, Bool.and_eq_true, beq_iff_eq] at hc
        exact hex ⟨e, he, hc.1, hc.2⟩
      omega
  have hsub : ((edges.filter p).map φ).toFinset ⊆ S.toFinset.offDiag.image Sym2.mk := by
    intro x hx
    simp only [List.mem_toFinset, List.mem_map, List.mem_filter] at hx
    obtain ⟨e, ⟨_, hp⟩, rfl⟩ := hx
    have hp' : e.1 ≠ e.2.1 ∧ e.1 ∈ S ∧ e.2.1 ∈ S := by simpa [p] using hp
    simp only [Finset.mem_image, Finset.mem_offDiag, List.mem_toFinset]
    exact ⟨(e.1, e.2.1), ⟨hp'.2.1, hp'.2.2, hp'.1⟩, rfl⟩
  have hcard := Finset.card_le_card hsub
  rw [List.toFinset_card_of_nodup hnodup, Sym2.card_image_offDiag,
    List.toFinset_card_of_nodup hS, List.length_map] at hcard
  unfold intraEdges
  rw [List.countP_eq_length_filter]
  exact hcard

theorem calculateDensityWith_exact (g : Graph Node) (S : List Node) :
    calculateDensityWith (fun a b => a * b) (fun a b => a / b) g S = calculateDensity g S :=
  rfl

theorem calculateDensityWith_eq (fmul fdiv : ℚ → ℚ → ℚ) (g : Graph Node) (S : List Node)
    (hS : ∀ n ∈ S, n ∈ getAllNodes g) :
    calculateDensityWith fmul fdiv g S =
      .ok (if (S.length : ℚ) < 2 then 0
        else fdiv (edgeCount g S S : ℕ) (fdiv (fmul (S.length : ℚ) ((S.length : ℚ) - 1)) 2)) := by
  unfold calculateDensityWith
  by_cases h : (S.length : ℚ) < 2
  · simp [h]
  · simp only [h, if_false, densityLoop_eq g S S hS, zero_add]

/-- C5 (every intra-set edge is counted once). For the graph built from the edge list
`edges` by successive `addEdge` calls and a duplicate-free list `S` of at least two of
its nodes, `calculateDensity` returns the number of entries `(u, v, w)` of `edges` with
`u ≠ v`, `u ∈ S` and `v ∈ S`, divided by `|S| * (|S| - 1) / 2`, where the product and the
two quotients are the ones the machine computes (`fmul`, `fdiv`), whatever their
rounding. -/
theorem calculateDensity_counts_edges_once (fmul fdiv : ℚ → ℚ → ℚ)
    (edges : List (Node × Node × ℚ)) (S : List Node)
    (hS : S.Nodup) (h2 : 2 ≤ S.length) (hmem : ∀ n ∈ S, n ∈ getAllNodes (addEdges edges)) :
    calculateDensityWith fmul fdiv (addEdges edges) S =
      .ok (fdiv
        ((edges.countP (fun e => decide (e.1 ≠ e.2.1 ∧ e.1 ∈ S ∧ e.2.1 ∈ S)) : ℕ) : ℚ)
        (fdiv (fmul (S.length : ℚ) ((S.length : ℚ) - 1)) 2)) := by
  rw [calculateDensityWith_eq _ _ _ _ hmem]
  have h : ¬ (S.length : ℚ) < 2 := by
    rw [not_lt]; exact_mod_cast h2
  rw [if_neg h, edgeCount_addEdges edges S hS]
  rfl

/-- A run of C5: the path `2 - 1 - 4` with the extra edge `2 - 3`, measured on
`S = [2, 3, 4]`, where one edge out of three possible lies inside `S`. The quotient of `1`
by `3` is taken to be the `double` nearest to `1/3`, all other operations are exact. -/
theorem calculateDensity_counts_edges_once_witness :
    calculateDensityWith (fun a b => a * b)
        (fun a b => if a = 1 ∧ b = 3 then 6004799503160661 / 18014398509481984 else a / b)
        (addEdges [((1 : ℕ), (2 : ℕ), (1 : ℚ)), (2, 3, 1), (1, 4, 1)]) [2, 3, 4] =
      .ok ((fun a b : ℚ => if a = 1 ∧ b = 3 then 6004799503160661 / 18014398509481984 else a / b)
        (([((1 : ℕ), (2 : ℕ), (1 : ℚ)), (2, 3, 1), (1, 4, 1)].countP
          (fun e => decide (e.1 ≠ e.2.1 ∧ e.1 ∈ [2, 3, 4] ∧ e.2.1 ∈ [2, 3, 4])) : ℕ) : ℚ)
        ((fun a b : ℚ => if a = 1 ∧ b = 3 then 6004799503160661 / 18014398509481984 else a / b)
          ((fun a b : ℚ => a * b) (([2, 3, 4] : List ℕ).length : ℚ)
            ((([2, 3, 4] : List ℕ).length : ℚ) - 1)) 2)) :=
  calculateDensity_counts_edges_once (fun a b => a * b)
    (fun a b => if a = 1 ∧ b = 3 then 6004799503160661 / 18014398509481984 else a / b)
    [((1 : ℕ), (2 : ℕ), (1 : ℚ)), (2, 3, 1), (1, 4, 1)] [2, 3, 4]
    (by decide) (by decide) (by decide)

/-- The run above returns the `double` nearest to `1/3`, which is below `1/3`. -/
theorem calculateDensityWith_one_third :
    calculateDensityWith (fun a b => a * b)
        (fun a b => if a = 1 ∧ b = 3 then 6004799503160661 / 18014398509481984 else a / b)
        (addEdges [((1 : ℕ), (2 : ℕ), (1 : ℚ)), (2, 3, 1), (1, 4, 1)]) [2, 3, 4] =
      .ok (6004799503160661 / 18014398509481984) ∧
    (6004799503160661 / 18014398509481984 : ℚ) < 1 / 3 := by
  refine ⟨?_, by norm_num⟩
  rw [calculateDensityWith_eq _ _ _ _ (by decide)]
  norm_num [edgeCount, adj, find, addEdges, addEdge, pushBack]

/-- C4 (density range). For a graph built by `addEdge` calls no two of which join the
same two distinct nodes, and a duplicate-free list `S` of at least two of its nodes,
`calculateDensity` returns a value between `0` and `1`. -/
theorem calculateDensity_range (edges : List (Node × Node × ℚ)) (S : List Node)
    (hnp : NoParallelEdges edges) (hS : S.Nodup) (h2 : 2 ≤ S.length)
    (hmem : ∀ n ∈ S, n ∈ getAllNodes (addEdges edges)) :
    ∃ d : ℚ, calculateDensity (addEdges edges) S = .ok d ∧ 0 ≤ d ∧ d ≤ 1 := by
  refine ⟨density (addEdges edges) S, calculateDensity_eq _ _ hmem, density_nonneg _ _, ?_⟩
  unfold density
  have h : ¬ (S.length : ℚ) < 2 := by
    rw [not_lt]; exact_mod_cast h2
  rw [if_neg h, edgeCount_addEdges edges S hS, ← Nat.cast_choose_two]
  have hpos : (0 : ℚ) < (S.length.choose 2 : ℕ) := by
    have : 0 < S.length.choose 2 := Nat.choose_pos h2
    exact_mod_cast this
  rw [div_le_one hpos]
  exact_mod_cast intraEdges_le_choose edges S hS hnp

/-- A run of C4 on the triangle `1 - 2 - 3` with a self-loop at `1`. -/
theorem calculateDensity_range_witness :
    ∃ d : ℚ, calculateDensity
        (addEdges [((1 : ℕ), (2 : ℕ), (1 : ℚ)), (3, 2, 1), (1, 3, 1), (1, 1, 1)])
        [1, 2, 3] = .ok d ∧ 0 ≤ d ∧ d ≤ 1 :=
  calculateDensity_range [((1 : ℕ), (2 : ℕ), (1 : ℚ)), (3, 2, 1), (1, 3, 1), (1, 1, 1)] [1, 2, 3]
    (by
      intro u v huv
      simp only [List.countP_cons, List.countP_nil, decide_eq_true_eq]
      split_ifs <;> omega)
    (by decide) (by decide) (by decide)

/-! ## Periphery test -/

theorem countConnections_eq (candidate : Node) (S : List Node) (es : List (WeightedEdge Node)) :
    ∀ acc : ℤ, countConnections candidate S es acc =
      acc + (es.countP (fun e => decide (e.targetNode ∈ S ∧ e.targetNode ≠ candidate)) : ℕ) := by
  induction es with
  | nil => intro acc; simp [countConnections]
  | cons e rest ih =>
    intro acc
    by_cases h : e.targetNode ∈ S ∧ e.targetNode ≠ candidate
    · rw [countConnections, if_pos h, ih, List.countP_cons_of_pos _ _ (by simpa using h)]
      push_cast
      ring
    · rw [countConnections, if_neg h, ih, List.countP_cons_of_neg _ _ (by simpa using h)]

theorem isNodeInPeriphery_of_not_mem (g : Graph Node) (candidate : Node) (S : List Node)
    (t : ℚ) (h : candidate ∉ getAllNodes g) : isNodeInPeriphery g candidate S t = false := by
  unfold isNodeInPeriphery
  rw [(find_eq_none_iff g candidate).2 h]

theorem isNodeInPeripheryWith_exact (g : Graph Node) (candidate : Node) (S : List Node)
    (t : ℚ) : isNodeInPeripheryWith (fun a b => a / b) g candidate S t =
      isNodeInPeriphery g candidate S t :=
  rfl

/-- C7 (periphery test). For a candidate that is a key of the graph, with adjacency list
`es`, `isNodeInPeriphery` holds exactly when `k / max(|S| - 1, 1) ≥ threshold`, where `k`
is the number of half-edges of `es` whose target is in `S` and is not the candidate, and
the quotient is the one the machine computes (`fdiv`), whatever its rounding. -/
theorem isNodeInPeriphery_iff (fdiv : ℚ → ℚ → ℚ) (g : Graph Node) (candidate : Node)
    (es : List (WeightedEdge Node)) (S : List Node) (threshold : ℚ)
    (hc : find g candidate = some es) :
    isNodeInPeripheryWith fdiv g candidate S threshold = true ↔
      fdiv ((es.countP (fun e => decide (e.targetNode ∈ S ∧ e.targetNode ≠ candidate)) : ℕ) : ℚ)
        (max ((S.length : ℚ) - 1) 1) ≥ threshold := by
  unfold isNodeInPeripheryWith
  simp only [hc, countConnections_eq, zero_add, decide_eq_true_eq, Int.cast_natCast]
  have hden : (((if S.length > 1 then (S.length : ℤ) - 1 else 1 : ℤ)) : ℚ) =
      max ((S.length : ℚ) - 1) 1 := by
    by_cases h : S.length > 1
    · rw [if_pos h]
      have h' : (2 : ℚ) ≤ (S.length : ℚ) := by exact_mod_cast h
      rw [max_eq_left (by linarith)]
      push_cast
      ring
    · rw [if_neg h]
      have h' : (S.length : ℚ) ≤ 1 := by
        have : S.length ≤ 1 := by omega
        exact_mod_cast this
      rw [max_eq_right (by linarith)]
      push_cast
      ring
  rw [hden]

/-- A run of C7: the star with centre `0` and leaves `1, ..., 10`, the leaf `1` as candidate
against the set of all eleven nodes, so that `k = 1` and `|S| - 1 = 10`; the threshold is
the `double` nearest to `0.1`, and the quotient of `1` by `10` is taken to be that
`double`, as the machine computes it. -/
theorem isNodeInPeriphery_iff_witness :
    isNodeInPeripheryWith
        (fun a b => if a = 1 ∧ b = 10 then 3602879701896397 / 36028797018963968 else a / b)
        (addEdges [((0 : ℕ), (1 : ℕ), (1 : ℚ)), (0, 2, 1), (0, 3, 1), (0, 4, 1), (0, 5, 1),
          (0, 6, 1), (0, 7, 1), (0, 8, 1), (0, 9, 1), (0, 10, 1)])
        1 [0, 1, 2, 3, 4, 5, 6, 7, 8, 9, 10] (3602879701896397 / 36028797018963968) = true ↔
      (fun a b : ℚ => if a = 1 ∧ b = 10 then 3602879701896397 / 36028797018963968 else a / b)
        ((([⟨1, 0, 1⟩] : List (WeightedEdge ℕ)).countP
          (fun e => decide (e.targetNode ∈ [0, 1, 2, 3, 4, 5, 6, 7, 8, 9, 10] ∧
            e.targetNode ≠ 1)) : ℕ) : ℚ)
        (max ((([0, 1, 2, 3, 4, 5, 6, 7, 8, 9, 10] : List ℕ).length : ℚ) - 1) 1) ≥
        3602879701896397 / 36028797018963968 :=
  isNodeInPeriphery_iff
    (fun a b => if a = 1 ∧ b = 10 then 3602879701896397 / 36028797018963968 else a / b)
    (addEdges [((0 : ℕ), (1 : ℕ), (1 : ℚ)), (0, 2, 1), (0, 3, 1), (0, 4, 1), (0, 5, 1),
      (0, 6, 1), (0, 7, 1), (0, 8, 1), (0, 9, 1), (0, 10, 1)])
    1 [⟨1, 0, 1⟩] [0, 1, 2, 3, 4, 5, 6, 7, 8, 9, 10] (3602879701896397 / 36028797018963968)
    (by decide)

/-- On the run above the test holds, as in the program; with the exact quotient `1/10`,
which is below the `double` nearest to `0.1`, it fails. -/
theorem isNodeInPeripheryWith_star :
    isNodeInPeripheryWith
        (fun a b => if a = 1 ∧ b = 10 then 3602879701896397 / 36028797018963968 else a / b)
        (addEdges [((0 : ℕ), (1 : ℕ), (1 : ℚ)), (0, 2, 1), (0, 3, 1), (0, 4, 1), (0, 5, 1),
          (0, 6, 1), (0, 7, 1), (0, 8, 1), (0, 9, 1), (0, 10, 1)])
        1 [0, 1, 2, 3, 4, 5, 6, 7, 8, 9, 10] (3602879701896397 / 36028797018963968) = true ∧
    isNodeInPeriphery
        (addEdges [((0 : ℕ), (1 : ℕ), (1 : ℚ)), (0, 2, 1), (0, 3, 1), (0, 4, 1), (0, 5, 1),
          (0, 6, 1), (0, 7, 1), (0, 8, 1), (0, 9, 1), (0, 10, 1)])
        1 [0, 1, 2, 3, 4, 5, 6, 7, 8, 9, 10] (3602879701896397 / 36028797018963968) = false := by
  have hf : find (addEdges [((0 : ℕ), (1 : ℕ), (1 : ℚ)), (0, 2, 1), (0, 3, 1), (0, 4, 1),
      (0, 5, 1), (0, 6, 1), (0, 7, 1), (0, 8, 1), (0, 9, 1), (0, 10, 1)]) 1 =
      some [⟨1, 0, 1⟩] := by decide
  constructor
  · unfold isNodeInPeripheryWith
    rw [hf]
    norm_num [countConnections]
  · unfold isNodeInPeriphery
    rw [hf]
    norm_num [countConnections]

/-- C8, the claim as stated fails: in the graph with the single edge `1 - 2` the node `3`
is absent, `0 ≥ 0` holds, and `isNodeInPeriphery 3 [1, 2] 0` is `false`. -/
theorem isNodeInPeriphery_absent_counterexample :
    ¬ (isNodeInPeriphery (addEdges [((1 : ℕ), (2 : ℕ), (1 : ℚ))]) 3 [1, 2] 0 = true ↔
        (0 : ℚ) ≥ 0) := by
  rw [isNodeInPeriphery_of_not_mem _ _ _ _ (by decide)]
  simp

/-- C8 (amended). For a candidate that is not a key of the graph `isNodeInPeriphery`
returns `false`, for every node set and every threshold. -/
theorem isNodeInPeriphery_absent (g : Graph Node) (candidate : Node) (S : List Node)
    (threshold : ℚ) (h : find g candidate = none) :
    isNodeInPeriphery g candidate S threshold = false := by
  unfold isNodeInPeriphery
  rw [h]

/-- A run of the amended C8 with a threshold below zero. -/
theorem isNodeInPeriphery_absent_witness :
    isNodeInPeriphery (addEdges [((1 : ℕ), (2 : ℕ), (1 : ℚ))]) 3 [1, 2] (-1) = false :=
  isNodeInPeriphery_absent (addEdges [((1 : ℕ), (2 : ℕ), (1 : ℚ))]) 3 [1, 2] (-1) (by decide)

/-! ## Candidate collection -/

theorem mem_orderedInsert (x y : Node) (l : List Node) :
    y ∈ orderedInsert x l ↔ y = x ∨ y ∈ l := by
  induction l with
  | nil => simp [orderedInsert]
  | cons z zs ih =>
    unfold orderedInsert
    by_cases h1 : x < z
    · simp [h1]
    · by_cases h2 : x = z
      · subst h2
        simp
      · simp only [h1, h2, if_false, List.mem_cons, ih]
        tauto

theorem sorted_orderedInsert (x : Node) (l : List Node) (h : l.Sorted (· < ·)) :
    (orderedInsert x l).Sorted (· < ·) := by
  induction l with
  | nil => simp [orderedInsert]
  | cons z zs ih =>
    rw [List.sorted_cons] at h
    unfold orderedInsert
    by_cases h1 : x < z
    · rw [if_pos h1, List.sorted_cons]
      refine ⟨?_, List.sorted_cons.2 h⟩
      intro b hb
      rcases List.mem_cons.1 hb with rfl | hb
      · exact h1
      · exact lt_trans h1 (h.1 b hb)
    · by_cases h2 : x = z
      · rw [if_neg h1, if_pos h2]
        exact List.sorted_cons.2 h
      · rw [if_neg h1, if_neg h2, List.sorted_cons]
        refine ⟨?_, ih h.2⟩
        intro b hb
        rcases (mem_orderedInsert x b zs).1 hb with rfl | hb
        · exact lt_of_le_of_ne (not_lt.1 h1) (fun e => h2 e.symm)
        · exact h.1 b hb

theorem mem_collectEdges (visited : Node → Bool) (es : List (WeightedEdge Node)) :
    ∀ (c0 : List Node) (y : Node), y ∈ collectEdges visited es c0 ↔
      y ∈ c0 ∨ (visited y = false ∧ ∃ e ∈ es, e.targetNode = y) := by
  induction es with
  | nil => intro c0 y; simp [collectEdges]
  | cons e rest ih =>
    intro c0 y
    unfold collectEdges
    by_cases hv : visited e.targetNode = true
    · simp only [hv, Bool.not_true, Bool.false_eq_true, if_false, ih, List.mem_cons,
        exists_eq_or_imp]
      constructor
      · rintro (h | ⟨h1, h2⟩)
        · exact Or.inl h
        · exact Or.inr ⟨h1, Or.inr h2⟩
      · rintro (h | ⟨h1, h2 | h2⟩)
        · exact Or.inl h
        · rw [h2, h1] at hv
          exact absurd hv (by simp)
        · exact Or.inr ⟨h1, h2⟩
    · have hv' : visited e.targetNode = false := by simpa using hv
      simp only [hv', Bool.not_false, if_true, ih, mem_orderedInsert, List.mem_cons,
        exists_eq_or_imp]
      constructor
      · rintro ((h | h) | ⟨h1, h2⟩)
        · exact Or.inr ⟨h ▸ hv', Or.inl h.symm⟩
        · exact Or.inl h
        · exact Or.inr ⟨h1, Or.inr h2⟩
      · rintro (h | ⟨h1, h2 | h2⟩)
        · exact Or.inl (Or.inr h)
        · exact Or.inl (Or.inl h2.symm)
        · exact Or.inr ⟨h1, h2⟩

theorem sorted_collectEdges (visited : Node → Bool) (es : List (WeightedEdge Node)) :
    ∀ c0 : List Node, c0.Sorted (· < ·) → (collectEdges visited es c0).Sorted (· < ·) := by
  induction es with
  | nil => intro c0 h; simpa [collectEdges] using h
  | cons e rest ih =>
    intro c0 h
    unfold collectEdges
    split
    · exact ih _ (sorted_orderedInsert _ _ h)
    · exact ih _ h

theorem subscript_of_mem {g : Graph Node} {k : Node} (h : k ∈ getAllNodes g) :
    subscript g k = (g, adj g k) := by
  unfold subscript
  rw [find_eq_some_adj h]

theorem collectCandidates_fst (visited : Node → Bool) (g : Graph Node) (nodes : List Node)
    (h : ∀ n ∈ nodes, n ∈ getAllNodes g) :
    ∀ c0 : List Node, (collectCandidates visited nodes g c0).1 = g := by
  induction nodes with
  | nil => intro c0; rfl
  | cons n rest ih =>
    intro c0
    unfold collectCandidates
    simp only [subscript_of_mem (h n (List.mem_cons_self _ _))]
    exact ih (fun m hm => h m (List.mem_cons_of_mem _ hm)) _

theorem mem_collectCandidates (visited : Node → Bool) (g : Graph Node) (nodes : List Node)
    (h : ∀ n ∈ nodes, n ∈ getAllNodes g) :
    ∀ (c0 : List Node) (y : Node), y ∈ (collectCandidates visited nodes g c0).2 ↔
      y ∈ c0 ∨ (visited y = false ∧ ∃ n ∈ nodes, ∃ e ∈ adj g n, e.targetNode = y) := by
  induction nodes with
  | nil => intro c0 y; simp [collectCandidates]
  | cons n rest ih =>
    intro c0 y
    unfold collectCandidates
    simp only [subscript_of_mem (h n (List.mem_cons_self _ _))]
    have ih' := ih (fun m hm => h m (List.mem_cons_of_mem _ hm))
    rw [ih', mem_collectEdges]
    simp only [List.mem_cons, exists_eq_or_imp]
    constructor
    · rintro ((h1 | ⟨h1, h2⟩) | ⟨h1, h2⟩)
      · exact Or.inl h1
      · exact Or.inr ⟨h1, Or.inl h2⟩
      · exact Or.inr ⟨h1, Or.inr h2⟩
    · rintro (h1 | ⟨h1, h2 | h2⟩)
      · exact Or.inl (Or.inl h1)
      · exact Or.inl (Or.inr ⟨h1, h2⟩)
      · exact Or.inr ⟨h1, h2⟩

theorem sorted_collectCandidates (visited : Node → Bool) (g : Graph Node) (nodes : List Node)
    (h : ∀ n ∈ nodes, n ∈ getAllNodes g) :
    ∀ c0 : List Node, c0.Sorted (· < ·) →
      (collectCandidates visited nodes g c0).2.Sorted (· < ·) := by
  induction nodes with
  | nil => intro c0 hc; simpa [collectCandidates] using hc
  | cons n rest ih =>
    intro c0 hc
    unfold collectCandidates
    simp only [subscript_of_mem (h n (List.mem_cons_self _ _))]
    exact ih (fun m hm => h m (List.mem_cons_of_mem _ hm)) _ (sorted_collectEdges _ _ _ hc)

/-! ## One round of candidate evaluation -/

theorem setInsert_of_not_mem {s : List Node} {x : Node} (h : x ∉ s) :
    setInsert s x = s ++ [x] := by
  simp [setInsert, h]

theorem erase_append_singleton {s : List Node} {x : Node} (h : x ∉ s) :
    (s ++ [x]).erase x = s := by
  rw [List.erase_append_right _ h]
  simp

theorem evaluateCandidates_cons (g : Graph Node) (dT cT : ℚ) (c : Node) (rest : List Node)
    (st : RoundState Node) (hc : c ∉ st.nodes)
    (hk : ∀ n ∈ st.nodes ++ [c], n ∈ getAllNodes g) :
    evaluateCandidates g dT cT (c :: rest) st =
      if density g (st.nodes ++ [c]) ≥ dT ∧
          isNodeInPeriphery g c (st.nodes ++ [c]) cT = true then
        evaluateCandidates g dT cT rest ⟨st.nodes ++ [c], setVisited st.visited c true, true⟩
      else
        evaluateCandidates g dT cT rest
          ⟨st.nodes, setVisited (setVisited st.visited c true) c false, st.addedNew⟩ := by
  rw [evaluateCandidates]
  simp only [setInsert_of_not_mem hc, calculateDensity_eq _ _ hk, erase_append_singleton hc]

/-- What the loop over the candidates of one round computes: the accepted candidates
`acc` are appended to the cluster in evaluation order and marked visited, every other
candidate is left as it was. -/
theorem evaluateCandidates_spec (g : Graph Node) (dT cT : ℚ) :
    ∀ (cs : List Node) (st : RoundState Node),
      (∀ n ∈ st.nodes, n ∈ getAllNodes g) → (∀ c ∈ cs, c ∈ getAllNodes g) → cs.Nodup →
      (∀ c ∈ cs, c ∉ st.nodes) → (∀ c ∈ cs, st.visited c = false) →
      ∃ (acc : List Node) (st' : RoundState Node),
        evaluateCandidates g dT cT cs st = .ok st' ∧
        acc.Sublist cs ∧
        st'.nodes = st.nodes ++ acc ∧
        (∀ x, st'.visited x = (st.visited x || decide (x ∈ acc))) ∧
        st'.addedNew = (st.addedNew || !acc.isEmpty) ∧
        (acc ≠ [] → dT ≤ density g (st.nodes ++ acc)) ∧
        (acc = [] → ∀ c ∈ cs, ¬ (density g (st.nodes ++ [c]) ≥ dT ∧
          isNodeInPeriphery g c (st.nodes ++ [c]) cT = true)) := by
  intro cs
  induction cs with
  | nil =>
    intro st _ _ _ _ _
    exact ⟨[], st, rfl, List.Sublist.refl _, by simp, by simp, by simp, by simp, by simp⟩
  | cons c rest ih =>
    intro st hk hck hnd hnot hvis
    have hc : c ∉ st.nodes := hnot c (List.mem_cons_self _ _)
    have hk1 : ∀ n ∈ st.nodes ++ [c], n ∈ getAllNodes g := by
      intro n hn
      rcases List.mem_append.1 hn with hn | hn
      · exact hk n hn
      · rw [List.mem_singleton.1 hn]; exact hck c (List.mem_cons_self _ _)
    have hrk : ∀ c' ∈ rest, c' ∈ getAllNodes g := fun c' h => hck c' (List.mem_cons_of_mem _ h)
    have hrnd : rest.Nodup := (List.nodup_cons.1 hnd).2
    have hcr : c ∉ rest := (List.nodup_cons.1 hnd).1
    have hne : ∀ c' ∈ rest, c' ≠ c := fun c' h e => hcr (e ▸ h)
    rw [evaluateCandidates_cons g dT cT c rest st hc hk1]
    by_cases hacc : density g (st.nodes ++ [c]) ≥ dT ∧
        isNodeInPeriphery g c (st.nodes ++ [c]) cT = true
    · rw [if_pos hacc]
      obtain ⟨acc, st', h1, h2, h3, h4, h5, h6, _⟩ :=
        ih ⟨st.nodes ++ [c], setVisited st.visited c true, true⟩ hk1 hrk hrnd
          (by
            intro c' h hm
            rcases List.mem_append.1 hm with hm | hm
            · exact hnot c' (List.mem_cons_of_mem _ h) hm
            · exact hne c' h (List.mem_singleton.1 hm))
          (by
            intro c' h
            simp only [setVisited, hne c' h, if_false]
            exact hvis c' (List.mem_cons_of_mem _ h))
      refine ⟨c :: acc, st', h1, List.Sublist.cons₂ _ h2, ?_, ?_, ?_, ?_, ?_⟩
      · rw [h3]; simp
      · intro x
        rw [h4 x]
        by_cases hx : x = c
        · simp [setVisited, hx]
        · simp [setVisited, hx]
      · rw [h5]; simp
      · intro _
        by_cases ha : acc = []
        · subst ha
          exact hacc.1
        · have := h6 ha
          simpa using this
      · intro h; exact absurd h (by simp)
    · rw [if_neg hacc]
      obtain ⟨acc, st', h1, h2, h3, h4, h5, h6, h7⟩ :=
        ih ⟨st.nodes, setVisited (setVisited st.visited c true) c false, st.addedNew⟩ hk hrk hrnd
          (fun c' h => hnot c' (List.mem_cons_of_mem _ h))
          (by
            intro c' h
            simp only [setVisited, hne c' h, if_false]
            exact hvis c' (List.mem_cons_of_mem _ h))
      refine ⟨acc, st', h1, List.Sublist.cons _ h2, h3, ?_, h5, h6, ?_⟩
      · intro x
        rw [h4 x]
        by_cases hx : x = c
        · subst hx
          simp [setVisited, hvis x (List.mem_cons_self _ _)]
        · simp [setVisited, hx]
      · intro ha c' hc'
        rcases List.mem_cons.1 hc' with rfl | hc'
        · exact hacc
        · exact h7 ha c' hc'

/-! ## Expansion of one cluster -/

theorem unvisitedCount_le (g : Graph Node) (visited : Node → Bool) :
    unvisitedCount g visited ≤ (getAllNodes g).length :=
  le_trans (Finset.card_filter_le _ _) (List.toFinset_card_le _)

theorem unvisitedCount_lt {g : Graph Node} {vis vis' : Node → Bool}
    (hmono : ∀ x, vis x = true → vis' x = true) {x : Node} (hx : x ∈ getAllNodes g)
    (h1 : vis x = false) (h2 : vis' x = true) :
    unvisitedCount g vis' < unvisitedCount g vis := by
  apply Finset.card_lt_card
  rw [Finset.ssubset_iff_of_subset]
  · refine ⟨x, ?_, ?_⟩
    · simp [hx, h1]
    · simp [h2]
  · intro y hy
    simp only [Finset.mem_filter, List.mem_toFinset] at hy ⊢
    refine ⟨hy.1, ?_⟩
    cases hv : vis y with
    | false => rfl
    | true =>
      have := hmono y hv
      rw [hy.2] at this
      exact absurd this (by simp)

/-- What `expandCluster` computes on a graph whose half-edges all lead to keys, from a
cluster of visited keys, with enough rounds: the graph is left as it is, a duplicate-free
list `acc` of formerly unvisited keys is appended to the cluster and marked visited, the
grown cluster meets the density threshold, and no remaining candidate passes both tests. -/
theorem expandCluster_spec (g : Graph Node) (hg : Closed g) (dT cT : ℚ) :
    ∀ (fuel : ℕ) (nodes : List Node) (vis : Node → Bool),
      (∀ n ∈ nodes, n ∈ getAllNodes g) → (∀ n ∈ nodes, vis n = true) →
      unvisitedCount g vis < fuel →
      ∃ (acc : List Node) (vis' : Node → Bool),
        expandCluster fuel g nodes vis dT cT = .ok (g, nodes ++ acc, vis') ∧
        acc.Nodup ∧ (∀ x ∈ acc, x ∈ getAllNodes g ∧ vis x = false) ∧
        (∀ x, vis' x = (vis x || decide (x ∈ acc))) ∧
        (acc ≠ [] → dT ≤ density g (nodes ++ acc)) ∧
        (∀ c, IsCandidate g (nodes ++ acc) vis' c →
          ¬ (density g (nodes ++ acc ++ [c]) ≥ dT ∧
            isNodeInPeriphery g c (nodes ++ acc ++ [c]) cT = true)) := by
  intro fuel
  induction fuel with
  | zero => intro nodes vis _ _ h; exact absurd h (Nat.not_lt_zero _)
  | succ fuel ih =>
    intro nodes vis hk hv hfuel
    have hfst := collectCandidates_fst vis g nodes hk []
    have hmem := mem_collectCandidates vis g nodes hk []
    have hsorted := sorted_collectCandidates vis g nodes hk [] List.sorted_nil
    have hcand : ∀ c ∈ (collectCandidates vis nodes g []).2, IsCandidate g nodes vis c := by
      intro c hc
      rcases (hmem c).1 hc with h | h
      · exact absurd h (List.not_mem_nil _)
      · exact h
    have hck : ∀ c ∈ (collectCandidates vis nodes g []).2, c ∈ getAllNodes g := by
      intro c hc
      obtain ⟨_, n, _, e, he, rfl⟩ := hcand c hc
      exact hg n e he
    have hcv : ∀ c ∈ (collectCandidates vis nodes g []).2, vis c = false :=
      fun c hc => (hcand c hc).1
    have hcn : ∀ c ∈ (collectCandidates vis nodes g []).2, c ∉ nodes := by
      intro c hc hn
      have := hv c hn
      rw [hcv c hc] at this
      exact absurd this (by simp)
    obtain ⟨acc1, st', h1, h2, h3, h4, h5, h6, h7⟩ :=
      evaluateCandidates_spec g dT cT (collectCandidates vis nodes g []).2 ⟨nodes, vis, false⟩
        hk hck hsorted.nodup hcn hcv
    simp only at h3 h4 h5 h6 h7
    have hstep : expandCluster (fuel + 1) g nodes vis dT cT =
        if st'.addedNew = true then expandCluster fuel g st'.nodes st'.visited dT cT
        else .ok (g, st'.nodes, st'.visited) := by
      rw [expandCluster]
      simp only [hfst, h1]
    rw [hstep]
    by_cases ha : acc1 = []
    · subst ha
      have hadd : st'.addedNew = false := by rw [h5]; simp
      refine ⟨[], st'.visited, ?_, List.nodup_nil, by simp, ?_, by simp, ?_⟩
      · rw [hadd, h3]; simp
      · intro x; simp [h4 x]
      · intro c hc
        have hvc : vis c = false := by
          have := h4 c
          rw [hc.1] at this
          simpa using this.symm
        have hc' : c ∈ (collectCandidates vis nodes g []).2 := by
          apply (hmem c).2
          right
          refine ⟨hvc, ?_⟩
          simpa using hc.2
        simpa using h7 rfl c hc'
    · have hadd : st'.addedNew = true := by
        rw [h5]
        cases acc1 with
        | nil => exact absurd rfl ha
        | cons a l => simp
      have hsub : ∀ x ∈ acc1, x ∈ (collectCandidates vis nodes g []).2 := fun x hx => h2.subset hx
      have hk' : ∀ n ∈ st'.nodes, n ∈ getAllNodes g := by
        intro n hn
        rw [h3] at hn
        rcases List.mem_append.1 hn with hn | hn
        · exact hk n hn
        · exact hck n (hsub n hn)
      have hv' : ∀ n ∈ st'.nodes, st'.visited n = true := by
        intro n hn
        rw [h3] at hn
        rw [h4 n]
        rcases List.mem_append.1 hn with hn | hn
        · simp [hv n hn]
        · simp [hn]
      have hmono : ∀ x, vis x = true → st'.visited x = true := by
        intro x hx
        rw [h4 x, hx]
        simp
      have hfuel' : unvisitedCount g st'.visited < fuel := by
        obtain ⟨a, haa⟩ := List.exists_mem_of_ne_nil acc1 ha
        have hlt := unvisitedCount_lt hmono (hck a (hsub a haa)) (hcv a (hsub a haa))
          (by rw [h4 a]; simp [haa])
        omega
      obtain ⟨acc2, vis', e1, e2, e3, e4, e5, e6⟩ := ih st'.nodes st'.visited hk' hv' hfuel'
      have hnodes : st'.nodes ++ acc2 = nodes ++ (acc1 ++ acc2) := by
        rw [h3, List.append_assoc]
      refine ⟨acc1 ++ acc2, vis', ?_, ?_, ?_, ?_, ?_, ?_⟩
      · rw [if_pos hadd, e1, hnodes]
      · rw [List.nodup_append]
        refine ⟨h2.nodup hsorted.nodup, e2, ?_⟩
        intro x hx1 hx2
        have := (e3 x hx2).2
        rw [h4 x] at this
        simp [hx1] at this
      · intro x hx
        rcases List.mem_append.1 hx with hx | hx
        · exact ⟨hck x (hsub x hx), hcv x (hsub x hx)⟩
        · refine ⟨(e3 x hx).1, ?_⟩
          have := (e3 x hx).2
          rw [h4 x] at this
          cases hvx : vis x with
          | false => rfl
          | true => rw [hvx] at this; exact absurd this (by simp)
      · intro x
        rw [e4 x, h4 x]
        simp [Bool.or_assoc]
      · intro _
        by_cases hb : acc2 = []
        · subst hb
          simpa using h6 ha
        · rw [← hnodes]
          exact e5 hb
      · intro c hc
        rw [← hnodes] at hc ⊢
        exact e6 c hc

/-! ## The driver -/

/-- What the driver loop computes on a graph whose half-edges all lead to keys, when it
scans keys only and every expansion has enough rounds: the graph is left as it is, the
clusters `news` are appended to the result, and
* visited marks are never lost and every scanned node ends up visited;
* every new cluster is a duplicate-free, non-empty list of keys that were unvisited
  before and are visited afterwards, and it meets the density threshold;
* the new clusters are pairwise disjoint;
* with a density threshold of at most `0`, every newly visited node is in a new cluster. -/
theorem clusteringLoop_spec (g : Graph Node) (hg : Closed g) (fuel : ℕ)
    (hf : (getAllNodes g).length < fuel) (dT cT : ℚ) :
    ∀ (order : List Node) (vis : Node → Bool) (cls : List (Cluster Node)),
      (∀ n ∈ order, n ∈ getAllNodes g) →
      ∃ (news : List (Cluster Node)) (vis' : Node → Bool),
        clusteringLoop fuel dT cT order ⟨g, vis, cls⟩ = .ok ⟨g, vis', cls ++ news⟩ ∧
        (∀ x, vis x = true → vis' x = true) ∧
        (∀ n ∈ order, vis' n = true) ∧
        (∀ C ∈ news, C.Nodup ∧ C ≠ [] ∧ dT ≤ density g C ∧
            ∀ x ∈ C, x ∈ getAllNodes g ∧ vis x = false ∧ vis' x = true) ∧
        news.Pairwise List.Disjoint ∧
        (dT ≤ 0 → ∀ x, vis' x = true → vis x = true ∨ ∃ C ∈ news, x ∈ C) := by
  intro order
  induction order with
  | nil =>
    intro vis cls _
    exact ⟨[], vis, by simp [clusteringLoop], fun _ h => h, by simp, by simp,
      List.Pairwise.nil, fun _ _ h => Or.inl h⟩
  | cons node rest ih =>
    intro vis cls hord
    have hrest : ∀ n ∈ rest, n ∈ getAllNodes g := fun n h => hord n (List.mem_cons_of_mem _ h)
    have hnode : node ∈ getAllNodes g := hord node (List.mem_cons_self _ _)
    by_cases hvn : vis node = true
    · obtain ⟨news, vis', h1, h2, h3, h4, h5, h6⟩ := ih vis cls hrest
      refine ⟨news, vis', ?_, h2, ?_, h4, h5, h6⟩
      · rw [clusteringLoop]
        simp only [hvn, Bool.not_true, Bool.false_eq_true, if_false]
        exact h1
      · intro n hn
        rcases List.mem_cons.1 hn with rfl | hn
        · exact h2 _ hvn
        · exact h3 n hn
    · have hvn' : vis node = false := by simpa using hvn
      obtain ⟨acc, vis2, e1, e2, e3, e4, e5, _⟩ :=
        expandCluster_spec g hg dT cT fuel [node] (setVisited vis node true)
          (by intro n hn; rw [List.mem_singleton.1 hn]; exact hnode)
          (by intro n hn; rw [List.mem_singleton.1 hn]; simp [setVisited])
          (lt_of_le_of_lt (unvisitedCount_le _ _) hf)
      have hCk : ∀ x ∈ [node] ++ acc, x ∈ getAllNodes g := by
        intro x hx
        rcases List.mem_append.1 hx with hx | hx
        · rw [List.mem_singleton.1 hx]; exact hnode
        · exact (e3 x hx).1
      have hvis2 : ∀ x, vis2 x = (decide (x = node) || vis x || decide (x ∈ acc)) := by
        intro x
        rw [e4 x]
        by_cases hx : x = node <;> simp [setVisited, hx]
      have hCv : ∀ x ∈ [node] ++ acc, vis x = false ∧ vis2 x = true := by
        intro x hx
        rw [hvis2 x]
        rcases List.mem_append.1 hx with hx | hx
        · rw [List.mem_singleton.1 hx]
          exact ⟨hvn', by simp⟩
        · refine ⟨?_, by simp [hx]⟩
          have := (e3 x hx).2
          by_cases hxn : x = node
          · rw [hxn]; exact hvn'
          · simpa [setVisited, hxn] using this
      have hCnd : ([node] ++ acc).Nodup := by
        rw [List.singleton_append, List.nodup_cons]
        refine ⟨?_, e2⟩
        intro hm
        have := (e3 node hm).2
        simp [setVisited] at this
      have hmono2 : ∀ x, vis x = true → vis2 x = true := by
        intro x hx
        rw [hvis2 x, hx]
        simp
      have hstep : clusteringLoop fuel dT cT (node :: rest) ⟨g, vis, cls⟩ =
          if density g ([node] ++ acc) ≥ dT then
            clusteringLoop fuel dT cT rest ⟨g, vis2, cls ++ [[node] ++ acc]⟩
          else clusteringLoop fuel dT cT rest ⟨g, vis2, cls⟩ := by
        rw [clusteringLoop]
        simp only [hvn', Bool.not_false, if_true, e1, calculateDensity_eq g _ hCk]
      rw [hstep]
      by_cases hd : density g ([node] ++ acc) ≥ dT
      · rw [if_pos hd]
        obtain ⟨news, vis', h1, h2, h3, h4, h5, h6⟩ := ih vis2 (cls ++ [[node] ++ acc]) hrest
        refine ⟨([node] ++ acc) :: news, vis', ?_, ?_, ?_, ?_, ?_, ?_⟩
        · rw [h1]; simp
        · exact fun x hx => h2 x (hmono2 x hx)
        · intro n hn
          rcases List.mem_cons.1 hn with rfl | hn
          · exact h2 _ (hCv _ (by simp)).2
          · exact h3 n hn
        · intro C hC
          rcases List.mem_cons.1 hC with rfl | hC
          · refine ⟨hCnd, by simp, hd, ?_⟩
            intro x hx
            exact ⟨hCk x hx, (hCv x hx).1, h2 x (hCv x hx).2⟩
          · obtain ⟨a1, a2, a3, a4⟩ := h4 C hC
            refine ⟨a1, a2, a3, ?_⟩
            intro x hx
            obtain ⟨b1, b2, b3⟩ := a4 x hx
            refine ⟨b1, ?_, b3⟩
            cases hvx : vis x with
            | false => rfl
            | true =>
              have := hmono2 x hvx
              rw [b2] at this
              exact absurd this (by simp)
        · rw [List.pairwise_cons]
          refine ⟨?_, h5⟩
          intro C hC x hx1 hx2
          have := ((h4 C hC).2.2.2 x hx2).2.1
          rw [(hCv x hx1).2] at this
          exact absurd this (by simp)
        · intro h0 x hx
          rcases h6 h0 x hx with h | ⟨C, hC, hxC⟩
          · rw [hvis2 x] at h
            simp only [Bool.or_eq_true, decide_eq_true_eq] at h
            rcases h with (h | h) | h
            · exact Or.inr ⟨[node] ++ acc, List.mem_cons_self _ _, by simp [h]⟩
            · exact Or.inl h
            · exact Or.inr ⟨[node] ++ acc, List.mem_cons_self _ _, by simp [h]⟩
          · exact Or.inr ⟨C, List.mem_cons_of_mem _ hC, hxC⟩
      · rw [if_neg hd]
        obtain ⟨news, vis', h1, h2, h3, h4, h5, h6⟩ := ih vis2 cls hrest
        refine ⟨news, vis', h1, ?_, ?_, ?_, h5, ?_⟩
        · exact fun x hx => h2 x (hmono2 x hx)
        · intro n hn
          rcases List.mem_cons.1 hn with rfl | hn
          · exact h2 _ (hCv _ (by simp)).2
          · exact h3 n hn
        · intro C hC
          obtain ⟨a1, a2, a3, a4⟩ := h4 C hC
          refine ⟨a1, a2, a3, ?_⟩
          intro x hx
          obtain ⟨b1, b2, b3⟩ := a4 x hx
          refine ⟨b1, ?_, b3⟩
          cases hvx : vis x with
          | false => rfl
          | true =>
            have := hmono2 x hvx
            rw [b2] at this
            exact absurd this (by simp)
        · intro h0
          exact absurd (le_trans h0 (density_nonneg g _)) hd

/-- What `performClustering` returns on a graph built by `addEdge` calls, for a scan order
that lists keys only, with enough rounds for every expansion. -/
theorem performClustering_spec (edges : List (Node × Node × ℚ)) (order : List Node) (fuel : ℕ)
    (dT cT : ℚ) (hord : ∀ n ∈ order, n ∈ getAllNodes (addEdges edges))
    (hf : (getAllNodes (addEdges edges)).length < fuel) :
    ∃ cs : List (Cluster Node),
      performClustering fuel (addEdges edges) order dT cT = .ok (addEdges edges, cs) ∧
      cs.Pairwise List.Disjoint ∧
      (∀ C ∈ cs, C.Nodup ∧ C ≠ [] ∧ dT ≤ density (addEdges edges) C ∧
        ∀ x ∈ C, x ∈ getAllNodes (addEdges edges)) ∧
      (dT ≤ 0 → ∀ n ∈ order, ∃ C ∈ cs, n ∈ C) := by
  obtain ⟨news, vis', h1, _, h3, h4, h5, h6⟩ :=
    clusteringLoop_spec (addEdges edges) (closed_addEdges edges) fuel hf dT cT order
      (fun _ => false) [] hord
  refine ⟨news, ?_, h5, ?_, ?_⟩
  · unfold performClustering
    rw [h1]
    simp
  · intro C hC
    obtain ⟨a1, a2, a3, a4⟩ := h4 C hC
    exact ⟨a1, a2, a3, fun x hx => (a4 x hx).1⟩
  · intro h0 n hn
    rcases h6 h0 n (h3 n hn) with h | h
    · exact absurd h (by simp)
    · exact h

/-- C1 (partition property). For a graph built by `addEdge` calls, every scan order of
its nodes, every pair of thresholds and enough rounds, `performClustering` returns a list
of clusters that are pairwise disjoint, each without repeated nodes: every node belongs
to at most one accepted cluster. -/
theorem performClustering_disjoint (edges : List (Node × Node × ℚ)) (order : List Node)
    (fuel : ℕ) (densityThreshold cpThreshold : ℚ)
    (hord : order.Perm (getAllNodes (addEdges edges)))
    (hf : (getAllNodes (addEdges edges)).length < fuel) :
    ∃ cs : List (Cluster Node),
      performClustering fuel (addEdges edges) order densityThreshold cpThreshold =
        .ok (addEdges edges, cs) ∧
      cs.Pairwise List.Disjoint ∧ ∀ C ∈ cs, C.Nodup := by
  obtain ⟨cs, h1, h2, h3, _⟩ := performClustering_spec edges order fuel densityThreshold
    cpThreshold (fun n hn => hord.subset hn) hf
  exact ⟨cs, h1, h2, fun C hC => (h3 C hC).1⟩

/-- A run of C1: two triangles joined by an edge, scanned from the middle, with
thresholds `1/2` and `1/2`. -/
theorem performClustering_disjoint_witness :
    ∃ cs : List (Cluster ℕ),
      performClustering 7
          (addEdges [((1 : ℕ), (2 : ℕ), (1 : ℚ)), (2, 3, 1), (1, 3, 1), (3, 4, 1), (4, 5, 1),
            (5, 6, 1), (4, 6, 1)])
          [3, 4, 1, 2, 5, 6] (1 / 2) (1 / 2) =
        .ok (addEdges [((1 : ℕ), (2 : ℕ), (1 : ℚ)), (2, 3, 1), (1, 3, 1), (3, 4, 1), (4, 5, 1),
            (5, 6, 1), (4, 6, 1)], cs) ∧
      cs.Pairwise List.Disjoint ∧ ∀ C ∈ cs, C.Nodup :=
  performClustering_disjoint
    [((1 : ℕ), (2 : ℕ), (1 : ℚ)), (2, 3, 1), (1, 3, 1), (3, 4, 1), (4, 5, 1), (5, 6, 1), (4, 6, 1)]
    [3, 4, 1, 2, 5, 6] 7 (1 / 2) (1 / 2) (by decide) (by decide)

/-- C2 (acceptance invariant). For a graph built by `addEdge` calls, every scan order of
its nodes, every pair of thresholds and enough rounds, `calculateDensity` succeeds on
every cluster returned by `performClustering` and is at least `densityThreshold`. -/
theorem performClustering_accepted_density (edges : List (Node × Node × ℚ))
    (order : List Node) (fuel : ℕ) (densityThreshold cpThreshold : ℚ)
    (hord : order.Perm (getAllNodes (addEdges edges)))
    (hf : (getAllNodes (addEdges edges)).length < fuel) :
    ∃ cs : List (Cluster Node),
      performClustering fuel (addEdges edges) order densityThreshold cpThreshold =
        .ok (addEdges edges, cs) ∧
      ∀ C ∈ cs, ∃ d : ℚ, calculateDensity (addEdges edges) C = .ok d ∧ d ≥ densityThreshold := by
  obtain ⟨cs, h1, _, h3, _⟩ := performClustering_spec edges order fuel densityThreshold
    cpThreshold (fun n hn => hord.subset hn) hf
  refine ⟨cs, h1, ?_⟩
  intro C hC
  obtain ⟨_, _, a3, a4⟩ := h3 C hC
  exact ⟨density (addEdges edges) C, calculateDensity_eq _ _ a4, a3⟩

/-- A run of C2: a triangle with a pendant node, thresholds `2/3` and `1/2`. -/
theorem performClustering_accepted_density_witness :
    ∃ cs : List (Cluster ℕ),
      performClustering 5
          (addEdges [((1 : ℕ), (2 : ℕ), (1 : ℚ)), (2, 3, 1), (1, 3, 1), (3, 4, 1)])
          [4, 3, 2, 1] (2 / 3) (1 / 2) =
        .ok (addEdges [((1 : ℕ), (2 : ℕ), (1 : ℚ)), (2, 3, 1), (1, 3, 1), (3, 4, 1)], cs) ∧
      ∀ C ∈ cs, ∃ d : ℚ,
        calculateDensity (addEdges [((1 : ℕ), (2 : ℕ), (1 : ℚ)), (2, 3, 1), (1, 3, 1), (3, 4, 1)])
          C = .ok d ∧ d ≥ 2 / 3 :=
  performClustering_accepted_density
    [((1 : ℕ), (2 : ℕ), (1 : ℚ)), (2, 3, 1), (1, 3, 1), (3, 4, 1)] [4, 3, 2, 1] 5 (2 / 3) (1 / 2)
    (by decide) (by decide)

/-- C3 (density threshold zero). For a graph built by `addEdge` calls, every scan order of
its nodes, every `cpThreshold` and enough rounds, `performClustering 0 cpThreshold` returns
clusters that cover the node universe: every key of the adjacency map is a member of some
accepted cluster. -/
theorem performClustering_zero_covers (edges : List (Node × Node × ℚ)) (order : List Node)
    (fuel : ℕ) (cpThreshold : ℚ)
    (hord : order.Perm (getAllNodes (addEdges edges)))
    (hf : (getAllNodes (addEdges edges)).length < fuel) :
    ∃ cs : List (Cluster Node),
      performClustering fuel (addEdges edges) order 0 cpThreshold = .ok (addEdges edges, cs) ∧
      ∀ n ∈ getAllNodes (addEdges edges), ∃ C ∈ cs, n ∈ C := by
  obtain ⟨cs, h1, _, _, h4⟩ := performClustering_spec edges order fuel 0
    cpThreshold (fun n hn => hord.subset hn) hf
  exact ⟨cs, h1, fun n hn => h4 (le_refl 0) n (hord.symm.subset hn)⟩

/-- A run of C3: a path `1 - 2 - 3` and a separate edge `4 - 5`, with `cpThreshold = 1`. -/
theorem performClustering_zero_covers_witness :
    ∃ cs : List (Cluster ℕ),
      performClustering 6 (addEdges [((1 : ℕ), (2 : ℕ), (1 : ℚ)), (2, 3, 1), (4, 5, 1)])
          [5, 3, 1, 2, 4] 0 1 =
        .ok (addEdges [((1 : ℕ), (2 : ℕ), (1 : ℚ)), (2, 3, 1), (4, 5, 1)], cs) ∧
      ∀ n ∈ getAllNodes (addEdges [((1 : ℕ), (2 : ℕ), (1 : ℚ)), (2, 3, 1), (4, 5, 1)]),
        ∃ C ∈ cs, n ∈ C :=
  performClustering_zero_covers [((1 : ℕ), (2 : ℕ), (1 : ℚ)), (2, 3, 1), (4, 5, 1)]
    [5, 3, 1, 2, 4] 6 1 (by decide) (by decide)

/-- C10 (singletons). `calculateDensity` returns `0` for every node set with fewer than two
nodes, in every graph; and for a graph built by `addEdge` calls, every scan order of its
nodes, thresholds with `densityThreshold > 0` and enough rounds, every cluster returned by
`performClustering` has at least two distinct nodes. -/
theorem performClustering_no_singleton (edges : List (Node × Node × ℚ)) (order : List Node)
    (fuel : ℕ) (densityThreshold cpThreshold : ℚ)
    (hord : order.Perm (getAllNodes (addEdges edges)))
    (hf : (getAllNodes (addEdges edges)).length < fuel) (hpos : 0 < densityThreshold) :
    (∀ (g : Graph Node) (S : List Node), S.length < 2 → calculateDensity g S = .ok 0) ∧
    ∃ cs : List (Cluster Node),
      performClustering fuel (addEdges edges) order densityThreshold cpThreshold =
        .ok (addEdges edges, cs) ∧
      ∀ C ∈ cs, 2 ≤ C.length ∧ C.Nodup := by
  refine ⟨calculateDensity_small, ?_⟩
  obtain ⟨cs, h1, _, h3, _⟩ := performClustering_spec edges order fuel densityThreshold
    cpThreshold (fun n hn => hord.subset hn) hf
  refine ⟨cs, h1, ?_⟩
  intro C hC
  obtain ⟨a1, _, a3, _⟩ := h3 C hC
  refine ⟨?_, a1⟩
  by_contra hlt
  have h0 := density_small (addEdges edges) C (by omega)
  rw [h0] at a3
  exact absurd hpos (not_lt.2 a3)

/-- A run of C10: an edge `1 - 2` and a self-loop at the otherwise isolated node `3`, with
thresholds `1/10` and `0`. -/
theorem performClustering_no_singleton_witness :
    (∀ (g : Graph ℕ) (S : List ℕ), S.length < 2 → calculateDensity g S = .ok 0) ∧
    ∃ cs : List (Cluster ℕ),
      performClustering 4 (addEdges [((1 : ℕ), (2 : ℕ), (1 : ℚ)), (3, 3, 1)]) [3, 1, 2]
          (1 / 10) 0 =
        .ok (addEdges [((1 : ℕ), (2 : ℕ), (1 : ℚ)), (3, 3, 1)], cs) ∧
      ∀ C ∈ cs, 2 ≤ C.length ∧ C.Nodup :=
  performClustering_no_singleton [((1 : ℕ), (2 : ℕ), (1 : ℚ)), (3, 3, 1)] [3, 1, 2] 4
    (1 / 10) 0 (by decide) (by decide) (by norm_num)

/-! ## The triangle with a pendant node -/

theorem addEdges_triangle_pendant (a b c d : Node) (hab : a < b) (hbc : b < c) (hcd : c < d)
    (w1 w2 w3 w4 : ℚ) :
    addEdges [(a, b, w1), (a, c, w2), (b, c, w3), (a, d, w4)] =
      [(a, [⟨a, b, w1⟩, ⟨a, c, w2⟩, ⟨a, d, w4⟩]), (b, [⟨b, a, w1⟩, ⟨b, c, w3⟩]),
        (c, [⟨c, a, w2⟩, ⟨c, b, w3⟩]), (d, [⟨d, a, w4⟩])] := by
  have hac := lt_trans hab hbc
  have hbd := lt_trans hbc hcd
  have had := lt_trans hab hbd
  simp [addEdges, addEdge, pushBack, ne_of_lt, ne_of_gt, hab, hbc, hcd, hac, hbd, had]

set_option maxRecDepth 100000 in
set_option maxHeartbeats 4000000 in
/-- The run of the triangle with a pendant node when the nodes are scanned in ascending
order. -/
theorem triangle_pendant_ascending (a b c d : Node) (hab : a < b) (hbc : b < c)
    (hcd : c < d) (w1 w2 w3 w4 : ℚ) (k : ℕ) :
    performClustering (k + 1 + 1) (addEdges [(a, b, w1), (a, c, w2), (b, c, w3), (a, d, w4)])
        [a, b, c, d] 1 1 =
      .ok (addEdges [(a, b, w1), (a, c, w2), (b, c, w3), (a, d, w4)], [[a, b, c]]) := by
  have hac := lt_trans hab hbc
  have hbd := lt_trans hbc hcd
  have had := lt_trans hab hbd
  have n1 := ne_of_lt hab
  have n2 := ne_of_lt hbc
  have n3 := ne_of_lt hcd
  have n4 := ne_of_lt hac
  have n5 := ne_of_lt hbd
  have n6 := ne_of_lt had
  have m1 := ne_of_gt hab
  have m2 := ne_of_gt hbc
  have m3 := ne_of_gt hcd
  have m4 := ne_of_gt hac
  have m5 := ne_of_gt hbd
  have m6 := ne_of_gt had
  have g1 := not_lt_of_lt hab
  have g2 := not_lt_of_lt hbc
  have g3 := not_lt_of_lt hcd
  have g4 := not_lt_of_lt hac
  have g5 := not_lt_of_lt hbd
  have g6 := not_lt_of_lt had
  rw [addEdges_triangle_pendant a b c d hab hbc hcd]
  norm_num [performClustering, clusteringLoop, expandCluster, collectCandidates, subscript,
    find, collectEdges, orderedInsert, evaluateCandidates, setInsert, calculateDensity,
    densityLoop, countEdges, isNodeInPeriphery, countConnections, setVisited,
    hab, hbc, hcd, hac, hbd, had, n1, n2, n3, n4, n5, n6, m1, m2, m3, m4, m5, m6,
    g1, g2, g3, g4, g5, g6]

/-- C9 (triangle plus pendant). For nodes `A < B < C < D`, the graph built from the edges
`A - B`, `A - C`, `B - C`, `A - D` with any weights, scanned in ascending order with both
thresholds `1`, and at least two rounds per expansion: `performClustering` returns exactly
one cluster, `{A, B, C}`, and no returned cluster contains `D`. -/
theorem performClustering_triangle_pendant (a b c d : Node) (hab : a < b) (hbc : b < c)
    (hcd : c < d) (w1 w2 w3 w4 : ℚ) (fuel : ℕ) (hf : 2 ≤ fuel) :
    performClustering fuel (addEdges [(a, b, w1), (a, c, w2), (b, c, w3), (a, d, w4)])
        [a, b, c, d] 1 1 =
      .ok (addEdges [(a, b, w1), (a, c, w2), (b, c, w3), (a, d, w4)], [[a, b, c]]) ∧
    ∀ C ∈ [[a, b, c]], d ∉ C := by
  have hbd := lt_trans hbc hcd
  have had := lt_trans hab hbd
  obtain ⟨k, rfl⟩ : ∃ k, fuel = k + 1 + 1 := ⟨fuel - 2, by omega⟩
  refine ⟨triangle_pendant_ascending a b c d hab hbc hcd w1 w2 w3 w4 k, ?_⟩
  intro C hC
  rw [List.mem_singleton.1 hC]
  simp [ne_of_gt hcd, ne_of_gt hbd, ne_of_gt had]

/-- A run of C9 with the node names `"A"`, `"B"`, `"C"`, `"D"` and weights `1/2`, `2`, `3`,
`7`. -/
theorem performClustering_triangle_pendant_witness :
    performClustering 5
        (addEdges [("A", "B", (1 / 2 : ℚ)), ("A", "C", 2), ("B", "C", 3), ("A", "D", 7)])
        ["A", "B", "C", "D"] 1 1 =
      .ok (addEdges [("A", "B", (1 / 2 : ℚ)), ("A", "C", 2), ("B", "C", 3), ("A", "D", 7)],
        [["A", "B", "C"]]) ∧
    ∀ C ∈ [["A", "B", "C"]], "D" ∉ C :=
  performClustering_triangle_pendant "A" "B" "C" "D"
    (by rw [String.lt_iff_toList_lt]; decide) (by rw [String.lt_iff_toList_lt]; decide)
    (by rw [String.lt_iff_toList_lt]; decide) (1 / 2) 2 3 7 5 (by decide)

/-! ## Neighbour lookup -/

theorem adj_addEdgesFrom (edges : List (Node × Node × ℚ)) (n : Node) :
    ∀ g : Graph Node, adj (addEdgesFrom g edges) n =
      adj g n ++ (halfEdges edges).filter (fun e => decide (e.sourceNode = n)) := by
  induction edges with
  | nil => intro g; simp [addEdgesFrom, halfEdges]
  | cons e rest ih =>
    intro g
    have hstep : addEdgesFrom g (e :: rest) = addEdgesFrom (addEdge g e.1 e.2.1 e.2.2) rest := rfl
    rw [hstep, ih, adj_addEdge]
    by_cases h1 : n = e.1
    · by_cases h2 : n = e.2.1
      · simp [halfEdges, List.filter_cons, h1.symm, h2.symm, ← h1, ← h2]
      · have h2' : ¬ e.2.1 = n := fun h => h2 h.symm
        simp [halfEdges, List.filter_cons, h1.symm, h2, h2', ← h1]
    · have h1' : ¬ e.1 = n := fun h => h1 h.symm
      by_cases h2 : n = e.2.1
      · simp [halfEdges, List.filter_cons, h1, h1', h2.symm, ← h2]
      · have h2' : ¬ e.2.1 = n := fun h => h2 h.symm
        simp [halfEdges, List.filter_cons, h1, h1', h2, h2']

/-- C12 (neighbour lookup). `getNeighbors` fails exactly when the node is not a key of the
adjacency map, and then with the not-found error thrown by `at`; for a key it returns the
stored list, which in a graph built by `addEdge` calls is exactly the list of the
half-edges that originate at the node, in insertion order. -/
theorem getNeighbors_notFound_iff (g : Graph Node) (edges : List (Node × Node × ℚ))
    (node : Node) :
    ((∃ e, getNeighbors g node = .error e) ↔ node ∉ getAllNodes g) ∧
    (getNeighbors g node = .error .outOfRange ↔ node ∉ getAllNodes g) ∧
    (∀ es, find g node = some es → getNeighbors g node = .ok es) ∧
    (node ∈ getAllNodes (addEdges edges) →
      getNeighbors (addEdges edges) node =
        .ok ((halfEdges edges).filter (fun e => decide (e.sourceNode = node)))) := by
  refine ⟨?_, ?_, ?_, ?_⟩
  · rw [← find_eq_none_iff]
    unfold getNeighbors
    cases find g node <;> simp
  · rw [← find_eq_none_iff]
    unfold getNeighbors
    cases find g node <;> simp
  · intro es h
    unfold getNeighbors
    rw [h]
  · intro h
    unfold getNeighbors
    rw [find_eq_some_adj h, addEdges_eq, adj_addEdgesFrom]
    simp [adj, find]

/-- C16 (parallel edges). Adding the edge between two distinct nodes `a` and `b` twice
gives a graph in which `calculateDensity [a, b]` is `2`, above `1`. -/
theorem calculateDensity_parallel_edges (a b : Node) (w1 w2 : ℚ) (hab : a ≠ b) :
    ∃ d : ℚ, calculateDensity (addEdges [(a, b, w1), (a, b, w2)]) [a, b] = .ok d ∧
      d = 2 ∧ d > 1 := by
  have hk : ∀ n ∈ [a, b], n ∈ getAllNodes (addEdges [(a, b, w1), (a, b, w2)]) := by
    intro n hn
    have h0 : addEdges [(a, b, w1), (a, b, w2)] =
        addEdge (addEdge ([] : Graph Node) a b w1) a b w2 := rfl
    rw [h0, mem_getAllNodes_addEdge]
    simp only [List.mem_cons, List.mem_singleton, List.not_mem_nil, or_false] at hn
    tauto
  have hnd : [a, b].Nodup := by simp [hab]
  refine ⟨density (addEdges [(a, b, w1), (a, b, w2)]) [a, b], calculateDensity_eq _ _ hk, ?_⟩
  have hd : density (addEdges [(a, b, w1), (a, b, w2)]) [a, b] = 2 := by
    unfold density
    rw [edgeCount_addEdges _ _ hnd]
    simp [intraEdges, hab]
    norm_num
  rw [hd]
  exact ⟨rfl, by norm_num⟩

/-- A run of C16 with the node names `"A"` and `"B"`. -/
theorem calculateDensity_parallel_edges_witness :
    ∃ d : ℚ, calculateDensity (addEdges [("A", "B", (1 : ℚ)), ("A", "B", 1)]) ["A", "B"] = .ok d ∧
      d = 2 ∧ d > 1 :=
  calculateDensity_parallel_edges "A" "B" 1 1 (by decide)

/-! ## Consequences of the expansion and driver specifications -/

theorem mem_setInsert (s : List Node) (x y : Node) : y ∈ setInsert s x ↔ y ∈ s ∨ y = x := by
  unfold setInsert
  by_cases h : x ∈ s
  · rw [if_pos h]
    constructor
    · exact Or.inl
    · rintro (h1 | h1)
      · exact h1
      · rw [h1]; exact h
  · rw [if_neg h]
    simp

theorem candidate_mem_keys {g : Graph Node} (hg : Closed g) {nodes : List Node}
    (hk : ∀ n ∈ nodes, n ∈ getAllNodes g) (vis : Node → Bool) :
    ∀ c ∈ (collectCandidates vis nodes g []).2, c ∈ getAllNodes g ∧ IsCandidate g nodes vis c := by
  intro c hc
  rcases (mem_collectCandidates vis g nodes hk [] c).1 hc with h | h
  · exact absurd h (List.not_mem_nil _)
  · refine ⟨?_, h⟩
    obtain ⟨_, n, _, e, he, rfl⟩ := h
    exact hg n e he

/-- C13, the claim as stated fails: with both thresholds equal to `2`, outside `[0, 1]`,
`performClustering` on the graph with the single edge `1 - 2` returns the empty cluster
list and no error. -/
theorem performClustering_out_of_range_counterexample :
    performClustering 3 (addEdges [((1 : ℕ), (2 : ℕ), (1 : ℚ))]) [1, 2] 2 2 =
      .ok (addEdges [((1 : ℕ), (2 : ℕ), (1 : ℚ))], []) := by
  norm_num [performClustering, clusteringLoop, expandCluster, collectCandidates, subscript,
    find, collectEdges, orderedInsert, evaluateCandidates, setInsert, calculateDensity,
    densityLoop, countEdges, isNodeInPeriphery, countConnections, setVisited, addEdges,
    addEdge, pushBack]

/-- C13 (amended). `performClustering` does not validate its thresholds: on a graph built
by `addEdge` calls, with a threshold outside `[0, 1]`, it still returns a cluster list and
leaves the graph as it is. -/
theorem performClustering_no_validation (edges : List (Node × Node × ℚ)) (order : List Node)
    (fuel : ℕ) (densityThreshold cpThreshold : ℚ)
    (hord : order.Perm (getAllNodes (addEdges edges)))
    (hf : (getAllNodes (addEdges edges)).length < fuel)
    (_hout : densityThreshold < 0 ∨ 1 < densityThreshold ∨ cpThreshold < 0 ∨ 1 < cpThreshold) :
    ∃ cs : List (Cluster Node),
      performClustering fuel (addEdges edges) order densityThreshold cpThreshold =
        .ok (addEdges edges, cs) := by
  obtain ⟨cs, h1, _⟩ := performClustering_spec edges order fuel densityThreshold
    cpThreshold (fun n hn => hord.subset hn) hf
  exact ⟨cs, h1⟩

/-- A run of the amended C13 with the thresholds `-1` and `3`. -/
theorem performClustering_no_validation_witness :
    ∃ cs : List (Cluster ℕ),
      performClustering 4 (addEdges [((1 : ℕ), (2 : ℕ), (1 : ℚ)), (2, 3, 1)]) [2, 1, 3] (-1) 3 =
        .ok (addEdges [((1 : ℕ), (2 : ℕ), (1 : ℚ)), (2, 3, 1)], cs) :=
  performClustering_no_validation [((1 : ℕ), (2 : ℕ), (1 : ℚ)), (2, 3, 1)] [2, 1, 3] 4 (-1) 3
    (by decide) (by decide) (Or.inl (by norm_num))

/-- The call of `expandCluster` made by the driver for the seed `seed`: the seed is a key
and is marked visited, the cluster is `[seed]`. -/
theorem expandCluster_seed_spec (edges : List (Node × Node × ℚ)) (seed : Node)
    (vis : Node → Bool) (fuel : ℕ) (dT cT : ℚ)
    (hseed : seed ∈ getAllNodes (addEdges edges)) (hvis : vis seed = true)
    (hf : (getAllNodes (addEdges edges)).length < fuel) :
    ∃ (acc : List Node) (vis' : Node → Bool),
      expandCluster fuel (addEdges edges) [seed] vis dT cT =
        .ok (addEdges edges, [seed] ++ acc, vis') ∧
      acc.Nodup ∧ (∀ x ∈ acc, x ∈ getAllNodes (addEdges edges) ∧ vis x = false) ∧
      (∀ x, vis' x = (vis x || decide (x ∈ acc))) ∧
      (acc ≠ [] → dT ≤ density (addEdges edges) ([seed] ++ acc)) ∧
      (∀ c, IsCandidate (addEdges edges) ([seed] ++ acc) vis' c →
        ¬ (density (addEdges edges) ([seed] ++ acc ++ [c]) ≥ dT ∧
          isNodeInPeriphery (addEdges edges) c ([seed] ++ acc ++ [c]) cT = true)) :=
  expandCluster_spec (addEdges edges) (closed_addEdges edges) dT cT fuel [seed] vis
    (by intro n hn; rw [List.mem_singleton.1 hn]; exact hseed)
    (by intro n hn; rw [List.mem_singleton.1 hn]; exact hvis)
    (lt_of_le_of_lt (unvisitedCount_le _ _) hf)

/-- C17 (local fixed point). When `expandCluster`, called with the cluster `[seed]` of a
visited key, returns the cluster `C` and the visited map `V`, no node `c` that is unvisited
in `V` and is the target of a half-edge from a member of `C` passes both tests against
`C ∪ {c}`: not both `calculateDensity (C ∪ {c}) ≥ densityThreshold` and
`isNodeInPeriphery c (C ∪ {c}) cpThreshold`. -/
theorem expandCluster_local_fixed_point (edges : List (Node × Node × ℚ)) (seed : Node)
    (visited : Node → Bool) (fuel : ℕ) (densityThreshold cpThreshold : ℚ)
    (hseed : seed ∈ getAllNodes (addEdges edges)) (hvis : visited seed = true)
    (hf : (getAllNodes (addEdges edges)).length < fuel) :
    ∃ (C : List Node) (V : Node → Bool),
      expandCluster fuel (addEdges edges) [seed] visited densityThreshold cpThreshold =
        .ok (addEdges edges, C, V) ∧
      ∀ c : Node, V c = false →
        (∃ n ∈ C, ∃ es, find (addEdges edges) n = some es ∧ ∃ e ∈ es, e.targetNode = c) →
        ¬ ((∃ d : ℚ, calculateDensity (addEdges edges) (setInsert C c) = .ok d ∧
              d ≥ densityThreshold) ∧
            isNodeInPeriphery (addEdges edges) c (setInsert C c) cpThreshold = true) := by
  obtain ⟨acc, vis', h1, _, h3, h4, _, h6⟩ :=
    expandCluster_seed_spec edges seed visited fuel densityThreshold cpThreshold hseed hvis hf
  refine ⟨[seed] ++ acc, vis', h1, ?_⟩
  intro c hc hedge
  obtain ⟨n, hn, es, hes, e, he, hec⟩ := hedge
  have hcand : IsCandidate (addEdges edges) ([seed] ++ acc) vis' c :=
    ⟨hc, n, hn, e, by rw [mem_adj_of_find hes]; exact he, hec⟩
  have hcC : c ∉ [seed] ++ acc := by
    intro hm
    have hv := h4 c
    rw [hc] at hv
    rcases List.mem_append.1 hm with hm | hm
    · rw [List.mem_singleton.1 hm, hvis] at hv
      simp at hv
    · simp [hm] at hv
  have hck : c ∈ getAllNodes (addEdges edges) := by
    have : e ∈ adj (addEdges edges) n := by rw [mem_adj_of_find hes]; exact he
    rw [← hec]
    exact closed_addEdges edges n e this
  have hk : ∀ x ∈ [seed] ++ acc ++ [c], x ∈ getAllNodes (addEdges edges) := by
    intro x hx
    rcases List.mem_append.1 hx with hx | hx
    · rcases List.mem_append.1 hx with hx | hx
      · rw [List.mem_singleton.1 hx]; exact hseed
      · exact (h3 x hx).1
    · rw [List.mem_singleton.1 hx]; exact hck
  rw [setInsert_of_not_mem hcC, calculateDensity_eq _ _ hk]
  rintro ⟨⟨d, hd, hge⟩, hp⟩
  have hdd : density (addEdges edges) ([seed] ++ acc ++ [c]) = d := by
    injection hd
  exact h6 c hcand ⟨hdd ▸ hge, hp⟩

/-- A run of C17 on the triangle `1 - 2 - 3` with the pendant edge `1 - 4`, seed `1`,
thresholds `1` and `1`. -/
theorem expandCluster_local_fixed_point_witness :
    ∃ (C : List ℕ) (V : ℕ → Bool),
      expandCluster 5 (addEdges [((1 : ℕ), (2 : ℕ), (1 : ℚ)), (1, 3, 1), (2, 3, 1), (1, 4, 1)])
          [1] (setVisited (fun _ => false) 1 true) 1 1 =
        .ok (addEdges [((1 : ℕ), (2 : ℕ), (1 : ℚ)), (1, 3, 1), (2, 3, 1), (1, 4, 1)], C, V) ∧
      ∀ c : ℕ, V c = false →
        (∃ n ∈ C, ∃ es,
          find (addEdges [((1 : ℕ), (2 : ℕ), (1 : ℚ)), (1, 3, 1), (2, 3, 1), (1, 4, 1)]) n =
            some es ∧ ∃ e ∈ es, e.targetNode = c) →
        ¬ ((∃ d : ℚ,
              calculateDensity
                (addEdges [((1 : ℕ), (2 : ℕ), (1 : ℚ)), (1, 3, 1), (2, 3, 1), (1, 4, 1)])
                (setInsert C c) = .ok d ∧ d ≥ 1) ∧
            isNodeInPeriphery
              (addEdges [((1 : ℕ), (2 : ℕ), (1 : ℚ)), (1, 3, 1), (2, 3, 1), (1, 4, 1)]) c
              (setInsert C c) 1 = true) :=
  expandCluster_local_fixed_point
    [((1 : ℕ), (2 : ℕ), (1 : ℚ)), (1, 3, 1), (2, 3, 1), (1, 4, 1)] 1
    (setVisited (fun _ => false) 1 true) 5 1 1 (by decide) (by decide) (by decide)

/-- C19 (only singletons are discarded). The cluster `C` returned by `expandCluster`,
called with the cluster `[seed]` of a visited key, is either `[seed]` itself or has
`calculateDensity C ≥ densityThreshold`; so when the driver's final check rejects it
(its density is below the threshold), `C` is the singleton seed and the threshold is
positive. -/
theorem expandCluster_singleton_or_dense (edges : List (Node × Node × ℚ)) (seed : Node)
    (visited : Node → Bool) (fuel : ℕ) (densityThreshold cpThreshold : ℚ)
    (hseed : seed ∈ getAllNodes (addEdges edges)) (hvis : visited seed = true)
    (hf : (getAllNodes (addEdges edges)).length < fuel) :
    ∃ (C : List Node) (V : Node → Bool),
      expandCluster fuel (addEdges edges) [seed] visited densityThreshold cpThreshold =
        .ok (addEdges edges, C, V) ∧
      (C = [seed] ∨ ∃ d : ℚ, calculateDensity (addEdges edges) C = .ok d ∧ d ≥ densityThreshold) ∧
      (∀ d : ℚ, calculateDensity (addEdges edges) C = .ok d → ¬ d ≥ densityThreshold →
        C = [seed] ∧ 0 < densityThreshold) := by
  obtain ⟨acc, vis', h1, _, h3, _, h5, _⟩ :=
    expandCluster_seed_spec edges seed visited fuel densityThreshold cpThreshold hseed hvis hf
  have hk : ∀ x ∈ [seed] ++ acc, x ∈ getAllNodes (addEdges edges) := by
    intro x hx
    rcases List.mem_append.1 hx with hx | hx
    · rw [List.mem_singleton.1 hx]; exact hseed
    · exact (h3 x hx).1
  refine ⟨[seed] ++ acc, vis', h1, ?_, ?_⟩
  · by_cases ha : acc = []
    · left; rw [ha]; rfl
    · right
      exact ⟨_, calculateDensity_eq _ _ hk, h5 ha⟩
  · intro d hd hlt
    rw [calculateDensity_eq _ _ hk] at hd
    have hdd : density (addEdges edges) ([seed] ++ acc) = d := by injection hd
    by_cases ha : acc = []
    · subst ha
      refine ⟨rfl, ?_⟩
      have h0 : density (addEdges edges) ([seed] ++ []) = 0 := density_small _ _ (by simp)
      rw [h0] at hdd
      rw [← hdd] at hlt
      exact not_le.1 hlt
    · exact absurd (hdd ▸ h5 ha) hlt

/-- A run of C19: the isolated node `3` (a self-loop only) as seed, threshold `1/2`. -/
theorem expandCluster_singleton_or_dense_witness :
    ∃ (C : List ℕ) (V : ℕ → Bool),
      expandCluster 4 (addEdges [((1 : ℕ), (2 : ℕ), (1 : ℚ)), (3, 3, 1)]) [3]
          (setVisited (fun _ => false) 3 true) (1 / 2) 0 =
        .ok (addEdges [((1 : ℕ), (2 : ℕ), (1 : ℚ)), (3, 3, 1)], C, V) ∧
      (C = [3] ∨ ∃ d : ℚ,
        calculateDensity (addEdges [((1 : ℕ), (2 : ℕ), (1 : ℚ)), (3, 3, 1)]) C = .ok d ∧
          d ≥ 1 / 2) ∧
      (∀ d : ℚ, calculateDensity (addEdges [((1 : ℕ), (2 : ℕ), (1 : ℚ)), (3, 3, 1)]) C = .ok d →
        ¬ d ≥ 1 / 2 → C = [3] ∧ (0 : ℚ) < 1 / 2) :=
  expandCluster_singleton_or_dense [((1 : ℕ), (2 : ℕ), (1 : ℚ)), (3, 3, 1)] 3
    (setVisited (fun _ => false) 3 true) 4 (1 / 2) 0 (by decide) (by decide) (by decide)

/-- C20 (lookups never fail, the graph is never extended). On a graph built by `addEdge`
calls, scanned in any order of its keys with enough rounds:
* `performClustering` returns without a not-found error, the graph after the run is the
  graph before it, and every node of a returned cluster is a key;
* every expansion the driver can start (a visited key as seed) returns the graph as it
  was, and a cluster of keys;
* for every cluster of keys, candidate collection (the `adjList[node]` accesses) leaves
  the graph as it is, every candidate is a key, and `calculateDensity` succeeds on the
  cluster with the candidate inserted. -/
theorem performClustering_lookups_succeed (edges : List (Node × Node × ℚ)) (order : List Node)
    (fuel : ℕ) (densityThreshold cpThreshold : ℚ)
    (hord : order.Perm (getAllNodes (addEdges edges)))
    (hf : (getAllNodes (addEdges edges)).length < fuel) :
    (∃ cs : List (Cluster Node),
      performClustering fuel (addEdges edges) order densityThreshold cpThreshold =
        .ok (addEdges edges, cs) ∧
      ∀ C ∈ cs, ∀ x ∈ C, x ∈ getAllNodes (addEdges edges)) ∧
    (∀ (seed : Node) (visited : Node → Bool), seed ∈ getAllNodes (addEdges edges) →
      visited seed = true →
      ∃ (C : List Node) (V : Node → Bool),
        expandCluster fuel (addEdges edges) [seed] visited densityThreshold cpThreshold =
          .ok (addEdges edges, C, V) ∧
        ∀ x ∈ C, x ∈ getAllNodes (addEdges edges)) ∧
    (∀ (nodes : List Node) (visited : Node → Bool),
      (∀ n ∈ nodes, n ∈ getAllNodes (addEdges edges)) →
      (collectCandidates visited nodes (addEdges edges) []).1 = addEdges edges ∧
      ∀ c ∈ (collectCandidates visited nodes (addEdges edges) []).2,
        c ∈ getAllNodes (addEdges edges) ∧
        ∃ d : ℚ, calculateDensity (addEdges edges) (setInsert nodes c) = .ok d) := by
  refine ⟨?_, ?_, ?_⟩
  · obtain ⟨cs, h1, _, h3, _⟩ := performClustering_spec edges order fuel densityThreshold
      cpThreshold (fun n hn => hord.subset hn) hf
    exact ⟨cs, h1, fun C hC => (h3 C hC).2.2.2⟩
  · intro seed visited hseed hvis
    obtain ⟨acc, vis', h1, _, h3, _⟩ :=
      expandCluster_seed_spec edges seed visited fuel densityThreshold cpThreshold hseed hvis hf
    refine ⟨[seed] ++ acc, vis', h1, ?_⟩
    intro x hx
    rcases List.mem_append.1 hx with hx | hx
    · rw [List.mem_singleton.1 hx]; exact hseed
    · exact (h3 x hx).1
  · intro nodes visited hk
    refine ⟨collectCandidates_fst visited _ nodes hk [], ?_⟩
    intro c hc
    have hck := (candidate_mem_keys (closed_addEdges edges) hk visited c hc).1
    refine ⟨hck, density (addEdges edges) (setInsert nodes c), calculateDensity_eq _ _ ?_⟩
    intro x hx
    rcases (mem_setInsert nodes c x).1 hx with hx | hx
    · exact hk x hx
    · rw [hx]; exact hck

/-- A run of C20 on a triangle with a pendant node, scanned from the pendant node. -/
theorem performClustering_lookups_succeed_witness :
    (∃ cs : List (Cluster ℕ),
      performClustering 5 (addEdges [((1 : ℕ), (2 : ℕ), (1 : ℚ)), (1, 3, 1), (2, 3, 1), (1, 4, 1)])
          [4, 1, 2, 3] (1 / 2) (1 / 2) =
        .ok (addEdges [((1 : ℕ), (2 : ℕ), (1 : ℚ)), (1, 3, 1), (2, 3, 1), (1, 4, 1)], cs) ∧
      ∀ C ∈ cs, ∀ x ∈ C,
        x ∈ getAllNodes (addEdges [((1 : ℕ), (2 : ℕ), (1 : ℚ)), (1, 3, 1), (2, 3, 1), (1, 4, 1)])) ∧
    (∀ (seed : ℕ) (visited : ℕ → Bool),
      seed ∈ getAllNodes (addEdges [((1 : ℕ), (2 : ℕ), (1 : ℚ)), (1, 3, 1), (2, 3, 1), (1, 4, 1)]) →
      visited seed = true →
      ∃ (C : List ℕ) (V : ℕ → Bool),
        expandCluster 5 (addEdges [((1 : ℕ), (2 : ℕ), (1 : ℚ)), (1, 3, 1), (2, 3, 1), (1, 4, 1)])
            [seed] visited (1 / 2) (1 / 2) =
          .ok (addEdges [((1 : ℕ), (2 : ℕ), (1 : ℚ)), (1, 3, 1), (2, 3, 1), (1, 4, 1)], C, V) ∧
        ∀ x ∈ C,
          x ∈ getAllNodes (addEdges [((1 : ℕ), (2 : ℕ), (1 : ℚ)), (1, 3, 1), (2, 3, 1), (1, 4, 1)])) ∧
    (∀ (nodes : List ℕ) (visited : ℕ → Bool),
      (∀ n ∈ nodes,
        n ∈ getAllNodes (addEdges [((1 : ℕ), (2 : ℕ), (1 : ℚ)), (1, 3, 1), (2, 3, 1), (1, 4, 1)])) →
      (collectCandidates visited nodes
          (addEdges [((1 : ℕ), (2 : ℕ), (1 : ℚ)), (1, 3, 1), (2, 3, 1), (1, 4, 1)]) []).1 =
        addEdges [((1 : ℕ), (2 : ℕ), (1 : ℚ)), (1, 3, 1), (2, 3, 1), (1, 4, 1)] ∧
      ∀ c ∈ (collectCandidates visited nodes
          (addEdges [((1 : ℕ), (2 : ℕ), (1 : ℚ)), (1, 3, 1), (2, 3, 1), (1, 4, 1)]) []).2,
        c ∈ getAllNodes (addEdges [((1 : ℕ), (2 : ℕ), (1 : ℚ)), (1, 3, 1), (2, 3, 1), (1, 4, 1)]) ∧
        ∃ d : ℚ,
          calculateDensity (addEdges [((1 : ℕ), (2 : ℕ), (1 : ℚ)), (1, 3, 1), (2, 3, 1), (1, 4, 1)])
            (setInsert nodes c) = .ok d) :=
  performClustering_lookups_succeed
    [((1 : ℕ), (2 : ℕ), (1 : ℚ)), (1, 3, 1), (2, 3, 1), (1, 4, 1)] [4, 1, 2, 3] 5 (1 / 2) (1 / 2)
    (by decide) (by decide)

/-! ## Termination of the expansion -/

/-- The `while` loop of `expandCluster` is the iteration of `expandRound`. -/
theorem expandCluster_succ (fuel : ℕ) (g : Graph Node) (nodes : List Node)
    (visited : Node → Bool) (dT cT : ℚ) :
    expandCluster (fuel + 1) g nodes visited dT cT =
      match expandRound g nodes visited dT cT with
      | .error e => .error e
      | .ok (g', st) =>
        if st.addedNew then expandCluster fuel g' st.nodes st.visited dT cT
        else .ok (g', st.nodes, st.visited) := by
  rw [expandCluster]
  unfold expandRound
  simp only
  cases evaluateCandidates (collectCandidates visited nodes g []).1 dT cT
    (collectCandidates visited nodes g []).2 ⟨nodes, visited, false⟩ <;> rfl

theorem getAllNodes_pushBack (g : Graph Node) (k : Node) (e : WeightedEdge Node) :
    getAllNodes (pushBack g k e) =
      if k ∈ getAllNodes g then getAllNodes g else getAllNodes g ++ [k] := by
  induction g with
  | nil => simp [pushBack, getAllNodes]
  | cons p rest ih =>
    obtain ⟨k', es⟩ := p
    simp only [getAllNodes] at ih
    by_cases hk : k' = k
    · simp [pushBack, getAllNodes, hk]
    · have hk' : ¬ k = k' := fun h => hk h.symm
      by_cases hm : k ∈ List.map Prod.fst rest
      · simp [pushBack, getAllNodes, hk, hk', ih, hm]
      · simp [pushBack, getAllNodes, hk, hk', ih, hm]

theorem nodup_getAllNodes_pushBack {g : Graph Node} (h : (getAllNodes g).Nodup) (k : Node)
    (e : WeightedEdge Node) : (getAllNodes (pushBack g k e)).Nodup := by
  rw [getAllNodes_pushBack]
  split
  · exact h
  · rename_i hk
    rw [List.nodup_append]
    refine ⟨h, List.nodup_singleton k, ?_⟩
    intro x hx hx'
    rw [List.mem_singleton.1 hx'] at hx
    exact hk hx

theorem nodup_getAllNodes_addEdgesFrom (edges : List (Node × Node × ℚ)) :
    ∀ g : Graph Node, (getAllNodes g).Nodup → (getAllNodes (addEdgesFrom g edges)).Nodup := by
  induction edges with
  | nil => intro g h; exact h
  | cons e rest ih =>
    intro g h
    exact ih _ (nodup_getAllNodes_pushBack (nodup_getAllNodes_pushBack h _ _) _ _)

theorem nodup_getAllNodes_addEdges (edges : List (Node × Node × ℚ)) :
    (getAllNodes (addEdges edges : Graph Node)).Nodup :=
  nodup_getAllNodes_addEdgesFrom edges [] (by simp [getAllNodes])

omit [LinearOrder Node] in
theorem length_le_keys {g : Graph Node} {nodes : List Node} (hnd : nodes.Nodup)
    (hk : ∀ n ∈ nodes, n ∈ getAllNodes g) : nodes.length ≤ (getAllNodes g).length :=
  (List.subperm_of_subset hnd hk).length_le

/-- What one round computes from a cluster of visited keys, on a graph whose half-edges
all lead to keys. -/
theorem expandRound_spec (g : Graph Node) (hg : Closed g) (dT cT : ℚ) (nodes : List Node)
    (vis : Node → Bool) (hk : ∀ n ∈ nodes, n ∈ getAllNodes g)
    (hv : ∀ n ∈ nodes, vis n = true) :
    ∃ (acc : List Node) (st : RoundState Node),
      expandRound g nodes vis dT cT = .ok (g, st) ∧
      st.nodes = nodes ++ acc ∧ acc.Nodup ∧
      (∀ x ∈ acc, x ∈ getAllNodes g ∧ vis x = false) ∧
      (∀ x, st.visited x = (vis x || decide (x ∈ acc))) ∧
      st.addedNew = !acc.isEmpty := by
  have hfst := collectCandidates_fst vis g nodes hk []
  have hsorted := sorted_collectCandidates vis g nodes hk [] List.sorted_nil
  have hcand := candidate_mem_keys hg hk vis
  have hcv : ∀ c ∈ (collectCandidates vis nodes g []).2, vis c = false :=
    fun c hc => (hcand c hc).2.1
  have hcn : ∀ c ∈ (collectCandidates vis nodes g []).2, c ∉ nodes := by
    intro c hc hn
    have := hv c hn
    rw [hcv c hc] at this
    exact absurd this (by simp)
  obtain ⟨acc, st', h1, h2, h3, h4, h5, _, _⟩ :=
    evaluateCandidates_spec g dT cT (collectCandidates vis nodes g []).2 ⟨nodes, vis, false⟩
      hk (fun c hc => (hcand c hc).1) hsorted.nodup hcn hcv
  simp only at h3 h4 h5
  refine ⟨acc, st', ?_, h3, h2.nodup hsorted.nodup, ?_, h4, ?_⟩
  · unfold expandRound
    simp only [hfst, h1]
  · intro x hx
    exact ⟨(hcand x (h2.subset hx)).1, hcv x (h2.subset hx)⟩
  · rw [h5]; simp

/-- The invariant of the rounds of an expansion started by the driver. -/
theorem roundReach_inv (g : Graph Node) (hg : Closed g) (dT cT : ℚ) (seed : Node)
    (vis0 : Node → Bool) (hseed : seed ∈ getAllNodes g) (hvis : vis0 seed = true)
    {g' : Graph Node} {nodes : List Node} {vis : Node → Bool}
    (h : RoundReach dT cT g seed vis0 g' nodes vis) :
    g' = g ∧ (∀ n ∈ nodes, n ∈ getAllNodes g) ∧ nodes.Nodup ∧ ∀ n ∈ nodes, vis n = true := by
  induction h with
  | start =>
    refine ⟨rfl, ?_, List.nodup_singleton seed, ?_⟩
    · intro n hn; rw [List.mem_singleton.1 hn]; exact hseed
    · intro n hn; rw [List.mem_singleton.1 hn]; exact hvis
  | step _ hround _ ih =>
    obtain ⟨rfl, hk, hnd, hv⟩ := ih
    obtain ⟨acc, st0, e1, e2, e3, e4, e5, _⟩ := expandRound_spec _ hg dT cT _ _ hk hv
    rw [e1] at hround
    injection hround with hround
    injection hround with hg' hst
    subst hst
    refine ⟨hg'.symm, ?_, ?_, ?_⟩
    · intro n hn
      rw [e2] at hn
      rcases List.mem_append.1 hn with hn | hn
      · exact hk n hn
      · exact (e4 n hn).1
    · rw [e2, List.nodup_append]
      refine ⟨hnd, e3, ?_⟩
      intro x hx1 hx2
      have := (e4 x hx2).2
      rw [hv x hx1] at this
      exact absurd this (by simp)
    · intro n hn
      rw [e2] at hn
      rw [e5 n]
      rcases List.mem_append.1 hn with hn | hn
      · simp [hv n hn]
      · simp [hn]

/-- C11 (termination of the expansion). On a graph built by `addEdge` calls (whose keys are
pairwise distinct), for the call of `expandCluster` made by the driver (cluster `[seed]`,
the seed a visited key) and a budget of rounds above the number of keys:
* the loop ends and returns a cluster with at most as many nodes as the graph has;
* every round of the loop starts from a cluster with at most as many nodes as the graph
  has and returns; a round that sets `addedNew` (the loop goes on) has added at least one
  node to the cluster, a round that does not (the loop halts) has left the cluster as it
  was, and the cluster after the round has at most as many nodes as the graph has. -/
theorem expandCluster_terminates (edges : List (Node × Node × ℚ)) (seed : Node)
    (visited : Node → Bool) (fuel : ℕ) (densityThreshold cpThreshold : ℚ)
    (hseed : seed ∈ getAllNodes (addEdges edges)) (hvis : visited seed = true)
    (hf : (getAllNodes (addEdges edges)).length < fuel) :
    (getAllNodes (addEdges edges)).Nodup ∧
    (∃ (C : List Node) (V : Node → Bool),
      expandCluster fuel (addEdges edges) [seed] visited densityThreshold cpThreshold =
        .ok (addEdges edges, C, V) ∧
      C.length ≤ (getAllNodes (addEdges edges)).length) ∧
    (∀ (g' : Graph Node) (nodes : List Node) (visited' : Node → Bool),
      RoundReach densityThreshold cpThreshold (addEdges edges) seed visited g' nodes visited' →
      nodes.length ≤ (getAllNodes (addEdges edges)).length ∧
      ∃ st : RoundState Node,
        expandRound g' nodes visited' densityThreshold cpThreshold = .ok (addEdges edges, st) ∧
        (st.addedNew = true → nodes.length + 1 ≤ st.nodes.length) ∧
        (st.addedNew = false → st.nodes = nodes) ∧
        st.nodes.length ≤ (getAllNodes (addEdges edges)).length) := by
  refine ⟨nodup_getAllNodes_addEdges edges, ?_, ?_⟩
  · obtain ⟨acc, vis', h1, h2, h3, _⟩ :=
      expandCluster_seed_spec edges seed visited fuel densityThreshold cpThreshold hseed hvis hf
    refine ⟨[seed] ++ acc, vis', h1, length_le_keys ?_ ?_⟩
    · rw [List.singleton_append, List.nodup_cons]
      refine ⟨?_, h2⟩
      intro hm
      have := (h3 seed hm).2
      rw [hvis] at this
      exact absurd this (by simp)
    · intro x hx
      rcases List.mem_append.1 hx with hx | hx
      · rw [List.mem_singleton.1 hx]; exact hseed
      · exact (h3 x hx).1
  · intro g' nodes visited' hreach
    obtain ⟨rfl, hk, hnd, hv⟩ :=
      roundReach_inv _ (closed_addEdges edges) densityThreshold cpThreshold seed visited hseed
        hvis hreach
    obtain ⟨acc, st, e1, e2, e3, e4, _, e6⟩ :=
      expandRound_spec _ (closed_addEdges edges) densityThreshold cpThreshold nodes visited' hk hv
    refine ⟨length_le_keys hnd hk, st, e1, ?_, ?_, ?_⟩
    · intro ha
      rw [e6] at ha
      rw [e2, List.length_append]
      cases acc with
      | nil => simp at ha
      | cons a l => simp
    · intro ha
      rw [e6] at ha
      rw [e2]
      cases acc with
      | nil => simp
      | cons a l => simp at ha
    · apply length_le_keys
      · rw [e2, List.nodup_append]
        refine ⟨hnd, e3, ?_⟩
        intro x hx1 hx2
        have := (e4 x hx2).2
        rw [hv x hx1] at this
        exact absurd this (by simp)
      · intro n hn
        rw [e2] at hn
        rcases List.mem_append.1 hn with hn | hn
        · exact hk n hn
        · exact (e4 n hn).1

/-- A run of C11 on the triangle `1 - 2 - 3` with the pendant edge `1 - 4` and seed `1`. -/
theorem expandCluster_terminates_witness :
    (getAllNodes (addEdges [((1 : ℕ), (2 : ℕ), (1 : ℚ)), (1, 3, 1), (2, 3, 1), (1, 4, 1)])).Nodup ∧
    (∃ (C : List ℕ) (V : ℕ → Bool),
      expandCluster 5 (addEdges [((1 : ℕ), (2 : ℕ), (1 : ℚ)), (1, 3, 1), (2, 3, 1), (1, 4, 1)])
          [1] (setVisited (fun _ => false) 1 true) 1 1 =
        .ok (addEdges [((1 : ℕ), (2 : ℕ), (1 : ℚ)), (1, 3, 1), (2, 3, 1), (1, 4, 1)], C, V) ∧
      C.length ≤
        (getAllNodes (addEdges [((1 : ℕ), (2 : ℕ), (1 : ℚ)), (1, 3, 1), (2, 3, 1), (1, 4, 1)])).length) ∧
    (∀ (g' : Graph ℕ) (nodes : List ℕ) (visited' : ℕ → Bool),
      RoundReach 1 1 (addEdges [((1 : ℕ), (2 : ℕ), (1 : ℚ)), (1, 3, 1), (2, 3, 1), (1, 4, 1)]) 1
        (setVisited (fun _ => false) 1 true) g' nodes visited' →
      nodes.length ≤
        (getAllNodes (addEdges [((1 : ℕ), (2 : ℕ), (1 : ℚ)), (1, 3, 1), (2, 3, 1), (1, 4, 1)])).length ∧
      ∃ st : RoundState ℕ,
        expandRound g' nodes visited' 1 1 =
          .ok (addEdges [((1 : ℕ), (2 : ℕ), (1 : ℚ)), (1, 3, 1), (2, 3, 1), (1, 4, 1)], st) ∧
        (st.addedNew = true → nodes.length + 1 ≤ st.nodes.length) ∧
        (st.addedNew = false → st.nodes = nodes) ∧
        st.nodes.length ≤
          (getAllNodes
            (addEdges [((1 : ℕ), (2 : ℕ), (1 : ℚ)), (1, 3, 1), (2, 3, 1), (1, 4, 1)])).length) :=
  expandCluster_terminates [((1 : ℕ), (2 : ℕ), (1 : ℚ)), (1, 3, 1), (2, 3, 1), (1, 4, 1)] 1
    (setVisited (fun _ => false) 1 true) 5 1 1 (by decide) (by decide) (by decide)

/-! ## Discarded clusters -/

/-- The driver loop over `l1 ++ l2` is the loop over `l1` followed by the loop over `l2`. -/
theorem clusteringLoop_append (fuel : ℕ) (dT cT : ℚ) :
    ∀ (l1 l2 : List Node) (st : DriverState Node),
      clusteringLoop fuel dT cT (l1 ++ l2) st =
        match clusteringLoop fuel dT cT l1 st with
        | .error e => .error e
        | .ok st1 => clusteringLoop fuel dT cT l2 st1 := by
  intro l1
  induction l1 with
  | nil => intro l2 st; simp [clusteringLoop]
  | cons n rest ih =>
    intro l2 st
    simp only [List.cons_append, clusteringLoop]
    by_cases hv : st.visited n = true
    · simp only [hv, Bool.not_true, Bool.false_eq_true, if_false]
      exact ih l2 st
    · have hv' : st.visited n = false := by simpa using hv
      simp only [hv', Bool.not_false, if_true]
      cases hE : expandCluster fuel st.graph [n] (setVisited st.visited n true) dT cT with
      | error e => rfl
      | ok r =>
        obtain ⟨g, nodes, vis⟩ := r
        simp only
        cases hD : calculateDensity g nodes with
        | error e => rfl
        | ok d =>
          simp only
          by_cases hd : d ≥ dT
          · simp only [hd, if_true]
            exact ih l2 _
          · simp only [hd, if_false]
            exact ih l2 _

/-- C14 (lost nodes). On a graph built by `addEdge` calls, scanned in the order
`pre ++ seed :: post` of its keys with enough rounds: the driver reaches `seed` in the
state `st` and returns the clusters `cs`; if `seed` is then unvisited, so that a cluster is
grown from it, and that cluster is discarded (its density is below the threshold), then
none of its nodes is a member of any cluster of `cs`, accepted before or after it. -/
theorem discarded_cluster_nodes_lost (edges : List (Node × Node × ℚ)) (pre post : List Node)
    (seed : Node) (fuel : ℕ) (densityThreshold cpThreshold : ℚ)
    (hord : (pre ++ seed :: post).Perm (getAllNodes (addEdges edges)))
    (hf : (getAllNodes (addEdges edges)).length < fuel) :
    ∃ (st : DriverState Node) (cs : List (Cluster Node)),
      clusteringLoop fuel densityThreshold cpThreshold pre ⟨addEdges edges, fun _ => false, []⟩ =
        .ok st ∧
      performClustering fuel (addEdges edges) (pre ++ seed :: post) densityThreshold
        cpThreshold = .ok (addEdges edges, cs) ∧
      ∀ (g' : Graph Node) (nodes : List Node) (V : Node → Bool) (d : ℚ),
        st.visited seed = false →
        expandCluster fuel st.graph [seed] (setVisited st.visited seed true) densityThreshold
          cpThreshold = .ok (g', nodes, V) →
        calculateDensity g' nodes = .ok d → ¬ d ≥ densityThreshold →
        ∀ C ∈ cs, ∀ x ∈ nodes, x ∉ C := by
  have hg := closed_addEdges edges
  have hall : ∀ n ∈ pre ++ seed :: post, n ∈ getAllNodes (addEdges edges) :=
    fun n hn => hord.subset hn
  have hpre : ∀ n ∈ pre, n ∈ getAllNodes (addEdges edges) :=
    fun n hn => hall n (List.mem_append_left _ hn)
  have hrest : ∀ n ∈ seed :: post, n ∈ getAllNodes (addEdges edges) :=
    fun n hn => hall n (List.mem_append_right _ hn)
  have hseed : seed ∈ getAllNodes (addEdges edges) := hrest seed (List.mem_cons_self _ _)
  have hpost : ∀ n ∈ post, n ∈ getAllNodes (addEdges edges) :=
    fun n hn => hrest n (List.mem_cons_of_mem _ hn)
  obtain ⟨news1, vis1, p1, _, _, p4, _, _⟩ :=
    clusteringLoop_spec (addEdges edges) hg fuel hf densityThreshold cpThreshold pre
      (fun _ => false) [] hpre
  obtain ⟨newsR, visR, r1, _⟩ :=
    clusteringLoop_spec (addEdges edges) hg fuel hf densityThreshold cpThreshold (seed :: post)
      vis1 ([] ++ news1) hrest
  refine ⟨⟨addEdges edges, vis1, [] ++ news1⟩, ([] ++ news1) ++ newsR, p1, ?_, ?_⟩
  · unfold performClustering
    rw [clusteringLoop_append, p1]
    simp only
    rw [r1]
  · intro g' nodes V d hvs hE hD hd
    simp only at hvs hE
    obtain ⟨acc, vis2, e1, _, e3, e4, _, _⟩ :=
      expandCluster_spec (addEdges edges) hg densityThreshold cpThreshold fuel [seed]
        (setVisited vis1 seed true)
        (by intro n hn; rw [List.mem_singleton.1 hn]; exact hseed)
        (by intro n hn; rw [List.mem_singleton.1 hn]; simp [setVisited])
        (lt_of_le_of_lt (unvisitedCount_le _ _) hf)
    have hE' := hE
    rw [e1] at hE'
    simp only [Except.ok.injEq, Prod.mk.injEq] at hE'
    obtain ⟨hg', hnodes, hV⟩ := hE'
    subst hg' hnodes hV
    rw [clusteringLoop] at r1
    simp only [hvs, Bool.not_false, if_true, hE, hD, hd, if_false] at r1
    obtain ⟨news2, vis3, q1, _, _, q4, _, _⟩ :=
      clusteringLoop_spec (addEdges edges) hg fuel hf densityThreshold cpThreshold post
        vis2 ([] ++ news1) hpost
    rw [q1] at r1
    simp only [Except.ok.injEq, DriverState.mk.injEq, true_and] at r1
    have hsame : newsR = news2 := (List.append_cancel_left r1.2).symm
    subst hsame
    have hx1 : ∀ x ∈ [seed] ++ acc, vis1 x = false ∧ vis2 x = true := by
      intro x hx
      rw [e4 x]
      rcases List.mem_append.1 hx with hx | hx
      · rw [List.mem_singleton.1 hx]
        exact ⟨hvs, by simp [setVisited]⟩
      · refine ⟨?_, by simp [hx]⟩
        have := (e3 x hx).2
        by_cases hxs : x = seed
        · rw [hxs]; exact hvs
        · simpa [setVisited, hxs] using this
    intro C hC x hx hxC
    rcases List.mem_append.1 hC with hC | hC
    · have h1 := ((p4 C (by simpa using hC)).2.2.2 x hxC).2.2
      rw [(hx1 x hx).1] at h1
      exact absurd h1 (by simp)
    · have h2 := ((q4 C hC).2.2.2 x hxC).2.1
      rw [(hx1 x hx).2] at h2
      exact absurd h2 (by simp)

/-- A run of C14: the triangle `1 - 2 - 3` with the pendant node `4` and a separate edge
`5 - 6`, thresholds `1` and `1`, scanned in ascending order. The cluster grown from the
seed `4` is the singleton `[4]` and is discarded. -/
theorem discarded_cluster_nodes_lost_witness :
    ∃ (st : DriverState ℕ) (cs : List (Cluster ℕ)),
      clusteringLoop 7 1 1 [1, 2, 3]
          ⟨addEdges [((1 : ℕ), (2 : ℕ), (1 : ℚ)), (1, 3, 1), (2, 3, 1), (1, 4, 1), (5, 6, 1)],
            fun _ => false, []⟩ = .ok st ∧
      performClustering 7
          (addEdges [((1 : ℕ), (2 : ℕ), (1 : ℚ)), (1, 3, 1), (2, 3, 1), (1, 4, 1), (5, 6, 1)])
          ([1, 2, 3] ++ 4 :: [5, 6]) 1 1 =
        .ok (addEdges [((1 : ℕ), (2 : ℕ), (1 : ℚ)), (1, 3, 1), (2, 3, 1), (1, 4, 1), (5, 6, 1)],
          cs) ∧
      ∀ (g' : Graph ℕ) (nodes : List ℕ) (V : ℕ → Bool) (d : ℚ),
        st.visited 4 = false →
        expandCluster 7 st.graph [4] (setVisited st.visited 4 true) 1 1 = .ok (g', nodes, V) →
        calculateDensity g' nodes = .ok d → ¬ d ≥ 1 →
        ∀ C ∈ cs, ∀ x ∈ nodes, x ∉ C :=
  discarded_cluster_nodes_lost
    [((1 : ℕ), (2 : ℕ), (1 : ℚ)), (1, 3, 1), (2, 3, 1), (1, 4, 1), (5, 6, 1)] [1, 2, 3] [5, 6] 4
    7 1 1 (by decide) (by decide)

/-! ## Edge weights are not read -/

theorem find_shape {g1 g2 : Graph Node} (h : shape g1 = shape g2) (k : Node) :
    (find g1 k).map (List.map (fun e => e.targetNode)) =
      (find g2 k).map (List.map (fun e => e.targetNode)) := by
  induction g1 generalizing g2 with
  | nil =>
    cases g2 with
    | nil => rfl
    | cons p rest => simp [shape] at h
  | cons p rest ih =>
    cases g2 with
    | nil => simp [shape] at h
    | cons q rest2 =>
      obtain ⟨k1, es1⟩ := p
      obtain ⟨k2, es2⟩ := q
      simp only [shape, List.map_cons, List.cons.injEq, Prod.mk.injEq] at h
      obtain ⟨⟨hk, hes⟩, hrest⟩ := h
      subst hk
      by_cases hkk : k1 = k
      · simp [find, hkk, hes]
      · simp only [find, hkk, if_false]
        exact ih hrest

theorem countEdges_targets (S : List Node) (n : Node) {es1 es2 : List (WeightedEdge Node)}
    (h : es1.map (fun e => e.targetNode) = es2.map (fun e => e.targetNode)) (acc : ℚ) :
    countEdges S n es1 acc = countEdges S n es2 acc := by
  have key : ∀ es : List (WeightedEdge Node),
      es.countP (fun e => decide (e.targetNode ∈ S ∧ n < e.targetNode)) =
        (es.map (fun e => e.targetNode)).countP (fun t => decide (t ∈ S ∧ n < t)) := by
    intro es
    rw [List.countP_map]
    rfl
  rw [countEdges_eq, countEdges_eq, key es1, key es2, h]

theorem densityLoop_shape {g1 g2 : Graph Node} (h : shape g1 = shape g2) (S : List Node) :
    ∀ (l : List Node) (acc : ℚ), densityLoop g1 S l acc = densityLoop g2 S l acc := by
  intro l
  induction l with
  | nil => intro acc; rfl
  | cons n rest ih =>
    intro acc
    have hf := find_shape h n
    simp only [densityLoop]
    cases h1 : find g1 n with
    | none =>
      cases h2 : find g2 n with
      | none => rfl
      | some es2 => rw [h1, h2] at hf; simp at hf
    | some es1 =>
      cases h2 : find g2 n with
      | none => rw [h1, h2] at hf; simp at hf
      | some es2 =>
        rw [h1, h2] at hf
        simp only [Option.map_some', Option.some.injEq] at hf
        simp only
        rw [countEdges_targets S n hf acc]
        exact ih _

theorem calculateDensity_shape {g1 g2 : Graph Node} (h : shape g1 = shape g2) (S : List Node) :
    calculateDensity g1 S = calculateDensity g2 S := by
  unfold calculateDensity
  rw [densityLoop_shape h S S 0]

theorem countConnections_targets (c : Node) (S : List Node) {es1 es2 : List (WeightedEdge Node)}
    (h : es1.map (fun e => e.targetNode) = es2.map (fun e => e.targetNode)) (acc : ℤ) :
    countConnections c S es1 acc = countConnections c S es2 acc := by
  have key : ∀ es : List (WeightedEdge Node),
      es.countP (fun e => decide (e.targetNode ∈ S ∧ e.targetNode ≠ c)) =
        (es.map (fun e => e.targetNode)).countP (fun t => decide (t ∈ S ∧ t ≠ c)) := by
    intro es
    rw [List.countP_map]
    rfl
  rw [countConnections_eq, countConnections_eq, key es1, key es2, h]

theorem isNodeInPeriphery_shape {g1 g2 : Graph Node} (h : shape g1 = shape g2) (c : Node)
    (S : List Node) (t : ℚ) : isNodeInPeriphery g1 c S t = isNodeInPeriphery g2 c S t := by
  have hf := find_shape h c
  unfold isNodeInPeriphery
  cases h1 : find g1 c with
  | none =>
    cases h2 : find g2 c with
    | none => rfl
    | some es2 => rw [h1, h2] at hf; simp at hf
  | some es1 =>
    cases h2 : find g2 c with
    | none => rw [h1, h2] at hf; simp at hf
    | some es2 =>
      rw [h1, h2] at hf
      simp only [Option.map_some', Option.some.injEq] at hf
      simp only
      rw [countConnections_targets c S hf 0]

theorem collectEdges_targets (vis : Node → Bool) :
    ∀ (es1 es2 : List (WeightedEdge Node)),
      es1.map (fun e => e.targetNode) = es2.map (fun e => e.targetNode) →
      ∀ c0 : List Node, collectEdges vis es1 c0 = collectEdges vis es2 c0 := by
  intro es1
  induction es1 with
  | nil =>
    intro es2 h c0
    cases es2 with
    | nil => rfl
    | cons e rest => simp at h
  | cons e1 rest1 ih =>
    intro es2 h c0
    cases es2 with
    | nil => simp at h
    | cons e2 rest2 =>
      simp only [List.map_cons, List.cons.injEq] at h
      obtain ⟨ht, hrest⟩ := h
      simp only [collectEdges, ht]
      split
      · exact ih rest2 hrest _
      · exact ih rest2 hrest _

theorem subscript_shape {g1 g2 : Graph Node} (h : shape g1 = shape g2) (k : Node) :
    shape (subscript g1 k).1 = shape (subscript g2 k).1 ∧
      (subscript g1 k).2.map (fun e => e.targetNode) =
        (subscript g2 k).2.map (fun e => e.targetNode) := by
  have hf := find_shape h k
  unfold subscript
  cases h1 : find g1 k with
  | none =>
    cases h2 : find g2 k with
    | none =>
      refine ⟨?_, rfl⟩
      simp only [shape, List.map_append] at h ⊢
      rw [h]
    | some es2 => rw [h1, h2] at hf; simp at hf
  | some es1 =>
    cases h2 : find g2 k with
    | none => rw [h1, h2] at hf; simp at hf
    | some es2 =>
      rw [h1, h2] at hf
      simp only [Option.map_some', Option.some.injEq] at hf
      exact ⟨h, hf⟩

theorem collectCandidates_shape (vis : Node → Bool) :
    ∀ (nodes : List Node) (g1 g2 : Graph Node) (c0 : List Node), shape g1 = shape g2 →
      shape (collectCandidates vis nodes g1 c0).1 = shape (collectCandidates vis nodes g2 c0).1 ∧
        (collectCandidates vis nodes g1 c0).2 = (collectCandidates vis nodes g2 c0).2 := by
  intro nodes
  induction nodes with
  | nil => intro g1 g2 c0 h; exact ⟨h, rfl⟩
  | cons n rest ih =>
    intro g1 g2 c0 h
    obtain ⟨s1, s2⟩ := subscript_shape h n
    simp only [collectCandidates]
    rw [collectEdges_targets vis _ _ s2 c0]
    exact ih _ _ _ s1

theorem evaluateCandidates_shape {g1 g2 : Graph Node} (h : shape g1 = shape g2) (dT cT : ℚ) :
    ∀ (cs : List Node) (st : RoundState Node),
      evaluateCandidates g1 dT cT cs st = evaluateCandidates g2 dT cT cs st := by
  intro cs
  induction cs with
  | nil => intro st; rfl
  | cons c rest ih =>
    intro st
    simp only [evaluateCandidates, calculateDensity_shape h, isNodeInPeriphery_shape h]
    cases calculateDensity g2 (setInsert st.nodes c) with
    | error e => rfl
    | ok d =>
      simp only
      split
      · exact ih _
      · exact ih _

theorem expandCluster_shape (dT cT : ℚ) :
    ∀ (fuel : ℕ) (g1 g2 : Graph Node) (nodes : List Node) (vis : Node → Bool),
      shape g1 = shape g2 →
      Except.map (fun r => (shape r.1, r.2)) (expandCluster fuel g1 nodes vis dT cT) =
        Except.map (fun r => (shape r.1, r.2)) (expandCluster fuel g2 nodes vis dT cT) := by
  intro fuel
  induction fuel with
  | zero => intro g1 g2 nodes vis _; rfl
  | succ fuel ih =>
    intro g1 g2 nodes vis h
    obtain ⟨c1, c2⟩ := collectCandidates_shape vis nodes g1 g2 [] h
    simp only [expandCluster]
    rw [evaluateCandidates_shape c1, c2]
    cases evaluateCandidates (collectCandidates vis nodes g2 []).1 dT cT
        (collectCandidates vis nodes g2 []).2 ⟨nodes, vis, false⟩ with
    | error e => rfl
    | ok st =>
      simp only
      by_cases ha : st.addedNew = true
      · simp only [ha, if_true]
        exact ih _ _ _ _ c1
      · simp only [ha, Bool.false_eq_true, if_false]
        simp only [Except.map, c1]

theorem clusteringLoop_shape (fuel : ℕ) (dT cT : ℚ) :
    ∀ (order : List Node) (g1 g2 : Graph Node) (vis : Node → Bool) (cls : List (Cluster Node)),
      shape g1 = shape g2 →
      Except.map (fun st => (shape st.graph, st.visited, st.clusters))
          (clusteringLoop fuel dT cT order ⟨g1, vis, cls⟩) =
        Except.map (fun st => (shape st.graph, st.visited, st.clusters))
          (clusteringLoop fuel dT cT order ⟨g2, vis, cls⟩) := by
  intro order
  induction order with
  | nil =>
    intro g1 g2 vis cls h
    simp only [clusteringLoop, Except.map, h]
  | cons n rest ih =>
    intro g1 g2 vis cls h
    simp only [clusteringLoop]
    by_cases hv : vis n = true
    · simp only [hv, Bool.not_true, Bool.false_eq_true, if_false]
      exact ih _ _ _ _ h
    · have hv' : vis n = false := by simpa using hv
      simp only [hv', Bool.not_false, if_true]
      have hE := expandCluster_shape dT cT fuel g1 g2 [n] (setVisited vis n true) h
      cases h1 : expandCluster fuel g1 [n] (setVisited vis n true) dT cT with
      | error e1 =>
        cases h2 : expandCluster fuel g2 [n] (setVisited vis n true) dT cT with
        | error e2 =>
          rw [h1, h2] at hE
          simp only [Except.map, Except.error.injEq] at hE
          simp only [Except.map, hE]
        | ok r2 => rw [h1, h2] at hE; simp [Except.map] at hE
      | ok r1 =>
        cases h2 : expandCluster fuel g2 [n] (setVisited vis n true) dT cT with
        | error e2 => rw [h1, h2] at hE; simp [Except.map] at hE
        | ok r2 =>
          rw [h1, h2] at hE
          obtain ⟨k1, nodes1, v1⟩ := r1
          obtain ⟨k2, nodes2, v2⟩ := r2
          simp only [Except.map, Except.ok.injEq, Prod.mk.injEq] at hE
          obtain ⟨hk, hn, hvv⟩ := hE
          subst hn hvv
          simp only [calculateDensity_shape hk]
          cases calculateDensity k2 nodes1 with
          | error e => rfl
          | ok d =>
            simp only
            split
            · exact ih _ _ _ _ hk
            · exact ih _ _ _ _ hk

theorem performClustering_shape {g1 g2 : Graph Node} (h : shape g1 = shape g2) (fuel : ℕ)
    (order : List Node) (dT cT : ℚ) :
    Except.map Prod.snd (performClustering fuel g1 order dT cT) =
      Except.map Prod.snd (performClustering fuel g2 order dT cT) := by
  have hL := clusteringLoop_shape fuel dT cT order g1 g2 (fun _ => false) [] h
  unfold performClustering
  cases h1 : clusteringLoop fuel dT cT order ⟨g1, fun _ => false, []⟩ with
  | error e1 =>
    cases h2 : clusteringLoop fuel dT cT order ⟨g2, fun _ => false, []⟩ with
    | error e2 =>
      rw [h1, h2] at hL
      simp only [Except.map, Except.error.injEq] at hL
      simp only [Except.map, hL]
    | ok s2 => rw [h1, h2] at hL; simp [Except.map] at hL
  | ok s1 =>
    cases h2 : clusteringLoop fuel dT cT order ⟨g2, fun _ => false, []⟩ with
    | error e2 => rw [h1, h2] at hL; simp [Except.map] at hL
    | ok s2 =>
      rw [h1, h2] at hL
      simp only [Except.map, Except.ok.injEq, Prod.mk.injEq] at hL
      simp only [Except.map, hL.2.2]

theorem shape_pushBack (k : Node) (e1 e2 : WeightedEdge Node)
    (he : e1.targetNode = e2.targetNode) :
    ∀ g1 g2 : Graph Node, shape g1 = shape g2 →
      shape (pushBack g1 k e1) = shape (pushBack g2 k e2) := by
  intro g1
  induction g1 with
  | nil =>
    intro g2 h
    cases g2 with
    | nil => simp [pushBack, shape, he]
    | cons q rest => simp [shape] at h
  | cons p rest ih =>
    intro g2 h
    cases g2 with
    | nil => simp [shape] at h
    | cons q rest2 =>
      obtain ⟨k1, es1⟩ := p
      obtain ⟨k2, es2⟩ := q
      have h' := h
      simp only [shape, List.map_cons, List.cons.injEq, Prod.mk.injEq] at h'
      obtain ⟨⟨hk, hes⟩, hrest⟩ := h'
      subst hk
      by_cases hkk : k1 = k
      · simp only [pushBack, hkk, if_true, shape, List.map_cons, List.map_append,
          List.map_nil, List.cons.injEq, Prod.mk.injEq, true_and]
        exact ⟨by rw [hes, he], hrest⟩
      · simp only [pushBack, hkk, if_false]
        have := ih rest2 hrest
        simp only [shape, List.map_cons, List.cons.injEq, Prod.mk.injEq, true_and] at this ⊢
        exact ⟨hes, this⟩

theorem shape_addEdgesFrom :
    ∀ (edges1 edges2 : List (Node × Node × ℚ)) (g1 g2 : Graph Node),
      edges1.map (fun e => (e.1, e.2.1)) = edges2.map (fun e => (e.1, e.2.1)) →
      shape g1 = shape g2 → shape (addEdgesFrom g1 edges1) = shape (addEdgesFrom g2 edges2) := by
  intro edges1
  induction edges1 with
  | nil =>
    intro edges2 g1 g2 h hs
    cases edges2 with
    | nil => exact hs
    | cons e rest => simp at h
  | cons e1 rest1 ih =>
    intro edges2 g1 g2 h hs
    cases edges2 with
    | nil => simp at h
    | cons e2 rest2 =>
      simp only [List.map_cons, List.cons.injEq, Prod.mk.injEq] at h
      obtain ⟨⟨hu, hv⟩, hrest⟩ := h
      have hstep1 : addEdgesFrom g1 (e1 :: rest1) =
          addEdgesFrom (addEdge g1 e1.1 e1.2.1 e1.2.2) rest1 := rfl
      have hstep2 : addEdgesFrom g2 (e2 :: rest2) =
          addEdgesFrom (addEdge g2 e2.1 e2.2.1 e2.2.2) rest2 := rfl
      rw [hstep1, hstep2]
      apply ih rest2 _ _ hrest
      unfold addEdge
      rw [hu, hv]
      exact shape_pushBack _ ⟨e2.2.1, e2.1, e1.2.2⟩ ⟨e2.2.1, e2.1, e2.2.2⟩ rfl _ _
        (shape_pushBack _ ⟨e2.1, e2.2.1, e1.2.2⟩ ⟨e2.1, e2.2.1, e2.2.2⟩ rfl _ _ hs)

omit [LinearOrder Node] in
theorem getAllNodes_eq_of_shape {g1 g2 : Graph Node} (h : shape g1 = shape g2) :
    getAllNodes g1 = getAllNodes g2 := by
  have := congrArg (List.map Prod.fst) h
  simpa [shape, getAllNodes, Function.comp] using this


theorem shape_addEdges {edges1 edges2 : List (Node × Node × ℚ)}
    (h : edges1.map (fun e => (e.1, e.2.1)) = edges2.map (fun e => (e.1, e.2.1))) :
    shape (addEdges edges1) = shape (addEdges edges2) :=
  shape_addEdgesFrom edges1 edges2 [] [] h rfl

/-- C15 (weights are not read). For two edge lists with the same sequence of
(source, target) pairs, the graphs built from them agree on `calculateDensity` and on
`isNodeInPeriphery` for all arguments, `performClustering` gives the same outcome on both
for every budget of rounds, scan order and thresholds, and for a scan order of the keys
with enough rounds both runs return the same cluster list. -/
theorem weights_do_not_influence (edges1 edges2 : List (Node × Node × ℚ)) (order : List Node)
    (fuel : ℕ) (densityThreshold cpThreshold : ℚ)
    (hpairs : edges1.map (fun e => (e.1, e.2.1)) = edges2.map (fun e => (e.1, e.2.1)))
    (hord : order.Perm (getAllNodes (addEdges edges1)))
    (hf : (getAllNodes (addEdges edges1)).length < fuel) :
    (∃ cs : List (Cluster Node),
      performClustering fuel (addEdges edges1) order densityThreshold cpThreshold =
        .ok (addEdges edges1, cs) ∧
      performClustering fuel (addEdges edges2) order densityThreshold cpThreshold =
        .ok (addEdges edges2, cs)) ∧
    (∀ (fuel' : ℕ) (order' : List Node) (dT cT : ℚ),
      Except.map Prod.snd (performClustering fuel' (addEdges edges1) order' dT cT) =
        Except.map Prod.snd (performClustering fuel' (addEdges edges2) order' dT cT)) ∧
    (∀ S : List Node,
      calculateDensity (addEdges edges1) S = calculateDensity (addEdges edges2) S) ∧
    (∀ (candidate : Node) (S : List Node) (threshold : ℚ),
      isNodeInPeriphery (addEdges edges1) candidate S threshold =
        isNodeInPeriphery (addEdges edges2) candidate S threshold) := by
  have hs : shape (addEdges edges1) = shape (addEdges edges2) := shape_addEdges hpairs
  have hkeys := getAllNodes_eq_of_shape hs
  refine ⟨?_, fun fuel' order' dT cT => performClustering_shape hs fuel' order' dT cT,
    fun S => calculateDensity_shape hs S, fun c S t => isNodeInPeriphery_shape hs c S t⟩
  obtain ⟨cs1, h1, _⟩ := performClustering_spec edges1 order fuel densityThreshold
    cpThreshold (fun n hn => hord.subset hn) hf
  obtain ⟨cs2, h2, _⟩ := performClustering_spec edges2 order fuel densityThreshold
    cpThreshold (fun n hn => hkeys ▸ hord.subset hn) (hkeys ▸ hf)
  have hE := performClustering_shape hs fuel order densityThreshold cpThreshold
  rw [h1, h2] at hE
  simp only [Except.map, Except.ok.injEq] at hE
  subst hE
  exact ⟨cs1, h1, h2⟩

/-- A run of C15: a triangle with a pendant node, once with unit weights and once with the
weights `5`, `1/3`, `-2`, `0`. -/
theorem weights_do_not_influence_witness :
    (∃ cs : List (Cluster ℕ),
      performClustering 5 (addEdges [((1 : ℕ), (2 : ℕ), (1 : ℚ)), (1, 3, 1), (2, 3, 1), (1, 4, 1)])
          [4, 1, 2, 3] (2 / 3) (1 / 2) =
        .ok (addEdges [((1 : ℕ), (2 : ℕ), (1 : ℚ)), (1, 3, 1), (2, 3, 1), (1, 4, 1)], cs) ∧
      performClustering 5
          (addEdges [((1 : ℕ), (2 : ℕ), (5 : ℚ)), (1, 3, 1 / 3), (2, 3, -2), (1, 4, 0)])
          [4, 1, 2, 3] (2 / 3) (1 / 2) =
        .ok (addEdges [((1 : ℕ), (2 : ℕ), (5 : ℚ)), (1, 3, 1 / 3), (2, 3, -2), (1, 4, 0)], cs)) ∧
    (∀ (fuel' : ℕ) (order' : List ℕ) (dT cT : ℚ),
      Except.map Prod.snd
          (performClustering fuel'
            (addEdges [((1 : ℕ), (2 : ℕ), (1 : ℚ)), (1, 3, 1), (2, 3, 1), (1, 4, 1)]) order' dT cT) =
        Except.map Prod.snd
          (performClustering fuel'
            (addEdges [((1 : ℕ), (2 : ℕ), (5 : ℚ)), (1, 3, 1 / 3), (2, 3, -2), (1, 4, 0)])
            order' dT cT)) ∧
    (∀ S : List ℕ,
      calculateDensity (addEdges [((1 : ℕ), (2 : ℕ), (1 : ℚ)), (1, 3, 1), (2, 3, 1), (1, 4, 1)]) S =
        calculateDensity
          (addEdges [((1 : ℕ), (2 : ℕ), (5 : ℚ)), (1, 3, 1 / 3), (2, 3, -2), (1, 4, 0)]) S) ∧
    (∀ (candidate : ℕ) (S : List ℕ) (threshold : ℚ),
      isNodeInPeriphery (addEdges [((1 : ℕ), (2 : ℕ), (1 : ℚ)), (1, 3, 1), (2, 3, 1), (1, 4, 1)])
          candidate S threshold =
        isNodeInPeriphery
          (addEdges [((1 : ℕ), (2 : ℕ), (5 : ℚ)), (1, 3, 1 / 3), (2, 3, -2), (1, 4, 0)])
          candidate S threshold) :=
  weights_do_not_influence [((1 : ℕ), (2 : ℕ), (1 : ℚ)), (1, 3, 1), (2, 3, 1), (1, 4, 1)]
    [((1 : ℕ), (2 : ℕ), (5 : ℚ)), (1, 3, 1 / 3), (2, 3, -2), (1, 4, 0)] [4, 1, 2, 3] 5
    (2 / 3) (1 / 2) (by decide) (by decide) (by decide)

/-! ## Dependence on the scan order -/

set_option maxRecDepth 100000 in
set_option maxHeartbeats 4000000 in
/-- The run of the triangle with a pendant node when the pendant node is scanned first. -/
theorem triangle_pendant_pendant_first (a b c d : Node) (hab : a < b) (hbc : b < c)
    (hcd : c < d) (w1 w2 w3 w4 : ℚ) (k : ℕ) :
    performClustering (k + 1 + 1) (addEdges [(a, b, w1), (a, c, w2), (b, c, w3), (a, d, w4)])
        [d, a, b, c] 1 1 =
      .ok (addEdges [(a, b, w1), (a, c, w2), (b, c, w3), (a, d, w4)], [[d, a], [b, c]]) := by
  have hac := lt_trans hab hbc
  have hbd := lt_trans hbc hcd
  have had := lt_trans hab hbd
  have n1 := ne_of_lt hab
  have n2 := ne_of_lt hbc
  have n3 := ne_of_lt hcd
  have n4 := ne_of_lt hac
  have n5 := ne_of_lt hbd
  have n6 := ne_of_lt had
  have m1 := ne_of_gt hab
  have m2 := ne_of_gt hbc
  have m3 := ne_of_gt hcd
  have m4 := ne_of_gt hac
  have m5 := ne_of_gt hbd
  have m6 := ne_of_gt had
  have g1 := not_lt_of_lt hab
  have g2 := not_lt_of_lt hbc
  have g3 := not_lt_of_lt hcd
  have g4 := not_lt_of_lt hac
  have g5 := not_lt_of_lt hbd
  have g6 := not_lt_of_lt had
  rw [addEdges_triangle_pendant a b c d hab hbc hcd]
  norm_num [performClustering, clusteringLoop, expandCluster, collectCandidates, subscript,
    find, collectEdges, orderedInsert, evaluateCandidates, setInsert, calculateDensity,
    densityLoop, countEdges, isNodeInPeriphery, countConnections, setVisited,
    hab, hbc, hcd, hac, hbd, had, n1, n2, n3, n4, n5, n6, m1, m2, m3, m4, m5, m6,
    g1, g2, g3, g4, g5, g6]


/-- C18 (the output depends on the scan order). For nodes `A < B < C < D` and the graph
built from the edges `A - B`, `A - C`, `B - C`, `A - D` with any weights, both `[A, B, C, D]`
and `[D, A, B, C]` are scan orders of the node universe, and with both thresholds `1` the
first gives the single cluster `{A, B, C}` while the second gives `{D, A}` and `{B, C}`,
neither of which has the members of `{A, B, C}`. -/
theorem performClustering_order_dependent (a b c d : Node) (hab : a < b) (hbc : b < c)
    (hcd : c < d) (w1 w2 w3 w4 : ℚ) (fuel : ℕ) (hf : 2 ≤ fuel) :
    ∃ cs1 cs2 : List (Cluster Node),
      [a, b, c, d].Perm (getAllNodes (addEdges [(a, b, w1), (a, c, w2), (b, c, w3), (a, d, w4)])) ∧
      [d, a, b, c].Perm (getAllNodes (addEdges [(a, b, w1), (a, c, w2), (b, c, w3), (a, d, w4)])) ∧
      performClustering fuel (addEdges [(a, b, w1), (a, c, w2), (b, c, w3), (a, d, w4)])
          [a, b, c, d] 1 1 =
        .ok (addEdges [(a, b, w1), (a, c, w2), (b, c, w3), (a, d, w4)], cs1) ∧
      performClustering fuel (addEdges [(a, b, w1), (a, c, w2), (b, c, w3), (a, d, w4)])
          [d, a, b, c] 1 1 =
        .ok (addEdges [(a, b, w1), (a, c, w2), (b, c, w3), (a, d, w4)], cs2) ∧
      cs1 = [[a, b, c]] ∧ cs2 = [[d, a], [b, c]] ∧
      ∀ C ∈ cs2, ¬ ∀ x, x ∈ C ↔ x ∈ [a, b, c] := by
  have hac := lt_trans hab hbc
  have hbd := lt_trans hbc hcd
  have had := lt_trans hab hbd
  obtain ⟨k, rfl⟩ : ∃ k, fuel = k + 1 + 1 := ⟨fuel - 2, by omega⟩
  have hkeys : getAllNodes (addEdges [(a, b, w1), (a, c, w2), (b, c, w3), (a, d, w4)]) =
      [a, b, c, d] := by
    rw [addEdges_triangle_pendant a b c d hab hbc hcd]
    rfl
  refine ⟨[[a, b, c]], [[d, a], [b, c]], ?_, ?_,
    triangle_pendant_ascending a b c d hab hbc hcd w1 w2 w3 w4 k,
    triangle_pendant_pendant_first a b c d hab hbc hcd w1 w2 w3 w4 k, rfl, rfl, ?_⟩
  · rw [hkeys]
  · rw [hkeys]
    have h1 : [d, a, b, c] = [d] ++ [a, b, c] := rfl
    have h2 : [a, b, c, d] = [a, b, c] ++ [d] := rfl
    rw [h1, h2]
    exact List.perm_append_comm
  · intro C hC hall
    simp only [List.mem_cons, List.mem_singleton, List.not_mem_nil, or_false] at hC
    rcases hC with rfl | rfl
    · have := (hall d).1 (by simp)
      simp only [List.mem_cons, List.mem_singleton, List.not_mem_nil, or_false] at this
      rcases this with h | h | h
      · exact absurd h (ne_of_gt had)
      · exact absurd h (ne_of_gt hbd)
      · exact absurd h (ne_of_gt hcd)
    · have := (hall a).2 (by simp)
      simp only [List.mem_cons, List.mem_singleton, List.not_mem_nil, or_false] at this
      rcases this with h | h
      · exact absurd h (ne_of_lt hab)
      · exact absurd h (ne_of_lt hac)

/-- A run of C18 with the node names `"A"`, `"B"`, `"C"`, `"D"` and unit weights. -/
theorem performClustering_order_dependent_witness :
    ∃ cs1 cs2 : List (Cluster String),
      ["A", "B", "C", "D"].Perm
        (getAllNodes
          (addEdges [("A", "B", (1 : ℚ)), ("A", "C", 1), ("B", "C", 1), ("A", "D", 1)])) ∧
      ["D", "A", "B", "C"].Perm
        (getAllNodes
          (addEdges [("A", "B", (1 : ℚ)), ("A", "C", 1), ("B", "C", 1), ("A", "D", 1)])) ∧
      performClustering 5
          (addEdges [("A", "B", (1 : ℚ)), ("A", "C", 1), ("B", "C", 1), ("A", "D", 1)])
          ["A", "B", "C", "D"] 1 1 =
        .ok (addEdges [("A", "B", (1 : ℚ)), ("A", "C", 1), ("B", "C", 1), ("A", "D", 1)], cs1) ∧
      performClustering 5
          (addEdges [("A", "B", (1 : ℚ)), ("A", "C", 1), ("B", "C", 1), ("A", "D", 1)])
          ["D", "A", "B", "C"] 1 1 =
        .ok (addEdges [("A", "B", (1 : ℚ)), ("A", "C", 1), ("B", "C", 1), ("A", "D", 1)], cs2) ∧
      cs1 = [["A", "B", "C"]] ∧ cs2 = [["D", "A"], ["B", "C"]] ∧
      ∀ C ∈ cs2, ¬ ∀ x, x ∈ C ↔ x ∈ ["A", "B", "C"] :=
  performClustering_order_dependent "A" "B" "C" "D"
    (by rw [String.lt_iff_toList_lt]; decide) (by rw [String.lt_iff_toList_lt]; decide)
    (by rw [String.lt_iff_toList_lt]; decide) 1 1 1 1 5 (by decide)

end ClusteringProject
